import Mathlib

/-!
A shallow embedding of the livetable in-memory columnar table engine
(schema-typed tables, change log, reactive views, filter expressions,
hash joins, aggregates with percentiles, string interning), together
with proofs of the specified properties.

The engine's core implementation is not shipped in this repository
(only its Python test-suite, examples and benchmarks are), so every
definition of core behaviour below is modelled from the specification
document, as indicated by its doc comment.  Machine floating-point
values are modelled by exact rationals.
-/

deriving instance DecidableEq for Except

namespace LiveTable

/-- Executable rational numbers: a numerator, a positive denominator.
Used to model the engine's f64 scalars with exact arithmetic; kept
unnormalized so that all operations reduce in the kernel. -/
structure Q where
  n : Int
  d : Nat
  dpos : 0 < d
deriving DecidableEq, Repr

/-- The rational denoted by a `Q`. -/
def Q.toRat (a : Q) : ℚ := (a.n : ℚ) / (a.d : ℚ)

/-- Embed an integer. -/
def Q.ofInt (n : Int) : Q := ⟨n, 1, Nat.one_pos⟩

/-- Semantic equality of `Q` values (cross multiplication). -/
def Q.eqv (a b : Q) : Prop := a.n * (b.d : Int) = b.n * (a.d : Int)

/-- Semantic order on `Q` values (cross multiplication). -/
def Q.le (a b : Q) : Prop := a.n * (b.d : Int) ≤ b.n * (a.d : Int)

/-- Strict semantic order on `Q` values. -/
def Q.lt (a b : Q) : Prop := a.n * (b.d : Int) < b.n * (a.d : Int)

instance : DecidableEq ℚ := inferInstance

instance Q.decEqv : ∀ a b : Q, Decidable (Q.eqv a b) := fun a b => by
  unfold Q.eqv; infer_instance

instance Q.decLe : DecidableRel Q.le := fun a b => by
  unfold Q.le; infer_instance

instance Q.decLt : DecidableRel Q.lt := fun a b => by
  unfold Q.lt; infer_instance

/-- Addition on `Q`. -/
def Q.add (a b : Q) : Q :=
  ⟨a.n * (b.d : Int) + b.n * (a.d : Int), a.d * b.d, Nat.mul_pos a.dpos b.dpos⟩

/-- Subtraction on `Q`. -/
def Q.sub (a b : Q) : Q :=
  ⟨a.n * (b.d : Int) - b.n * (a.d : Int), a.d * b.d, Nat.mul_pos a.dpos b.dpos⟩

/-- Multiplication on `Q`. -/
def Q.mul (a b : Q) : Q :=
  ⟨a.n * b.n, a.d * b.d, Nat.mul_pos a.dpos b.dpos⟩

/-- Floor of a `Q` as an integer (floor division of numerator by denominator). -/
def Q.floor (a : Q) : Int := Int.fdiv a.n (a.d : Int)

/-- Lexicographic strict order on character lists (by code point). -/
def strLtB : List Char → List Char → Bool
  | [], [] => false
  | [], _ :: _ => true
  | _ :: _, [] => false
  | a :: as, b :: bs =>
    if a.toNat < b.toNat then true
    else if a.toNat = b.toNat then strLtB as bs
    else false

/-- Lexicographic strict order on strings (by code point). -/
def strLt (a b : String) : Prop := strLtB a.data b.data = true

instance decStrLt : ∀ a b : String, Decidable (strLt a b) := fun a b => by
  unfold strLt; infer_instance

/-- Modelled from the spec (section 3, Value): the tagged scalar union.
Int32/Int64 are modelled by one unbounded integer variant, Float32/Float64
by one exact-rational variant, Date and DateTime by their integer epoch
representations. -/
inductive Value where
  | int (n : Int)
  | float (q : Q)
  | bool (b : Bool)
  | str (s : String)
  | date (days : Int)
  | datetime (ms : Int)
  | null
deriving DecidableEq, Repr

/-- Modelled from the spec: column types of the schema. -/
inductive CType where
  | int
  | float
  | bool
  | str
  | date
  | datetime
deriving DecidableEq, Repr

/-- Whether a (non-null) value inhabits a declared column type. -/
def Value.typeOk : CType → Value → Bool
  | .int, .int _ => true
  | .float, .float _ => true
  | .bool, .bool _ => true
  | .str, .str _ => true
  | .date, .date _ => true
  | .datetime, .datetime _ => true
  | _, _ => false

/-- Whether a value is the null value. -/
def Value.isNull : Value → Bool
  | .null => true
  | _ => false

/-- Modelled from the spec (section 4.A, as_f64): the numeric view of a
value, defined exactly for the numeric non-null variants. -/
def Value.asNum : Value → Option Q
  | .int n => some (Q.ofInt n)
  | .float q => some q
  | _ => none

/-- Rank used to order values of different variants relative to each
other; the two numeric variants share a rank and compare by value. -/
def Value.rank : Value → Nat
  | .null => 0
  | .bool _ => 1
  | .int _ => 2
  | .float _ => 2
  | .str _ => 3
  | .date _ => 4
  | .datetime _ => 5

/-- Numeric component used by value comparison (zero for non-numerics). -/
def Value.qval : Value → Q
  | .int n => Q.ofInt n
  | .float q => q
  | .bool b => Q.ofInt (if b then 1 else 0)
  | .date d => Q.ofInt d
  | .datetime m => Q.ofInt m
  | _ => Q.ofInt 0

/-- String component used by value comparison (empty for non-strings). -/
def Value.strOf : Value → String
  | .str s => s
  | _ => ""

/-- Modelled from the spec (section 4.A): strict comparison of non-null
values; different variants order by rank, the numeric variants compare
by their coerced numeric value, strings lexicographically. -/
def Value.vlt (a b : Value) : Prop :=
  a.rank < b.rank ∨
    (a.rank = b.rank ∧
      (strLt a.strOf b.strOf ∨ (a.strOf = b.strOf ∧ Q.lt a.qval b.qval)))

/-- Equivalence of non-null values under the comparison of `Value.vlt`;
in particular an integer and a float of equal numeric value are
equivalent, matching the numeric-coercion rule. -/
def Value.veq (a b : Value) : Prop :=
  a.rank = b.rank ∧ a.strOf = b.strOf ∧ Q.eqv a.qval b.qval

instance Value.decVlt : ∀ a b : Value, Decidable (Value.vlt a b) := fun a b => by
  unfold Value.vlt; infer_instance

instance Value.decVeq : ∀ a b : Value, Decidable (Value.veq a b) := fun a b => by
  unfold Value.veq; infer_instance

/-- Modelled from the spec (section 7): the typed error taxonomy. -/
inductive TError where
  | schemaViolation
  | typeMismatch
  | nullViolation
  | outOfRange
  | filterSyntax
  | shapeMismatch
  | unknownAggregate
  | invalidState
deriving DecidableEq, Repr

/-- One column of a schema: name, declared type, nullability. -/
structure ColSpec where
  name : String
  ty : CType
  nullable : Bool
deriving DecidableEq, Repr

/-- Modelled from the spec (section 3, Schema): an ordered list of
column specifications, fixed at table creation. -/
abbrev Schema := List ColSpec

/-- A row supplied by the host: an association list from column names
to values. -/
abbrev RowMap := List (String × Value)

/-- Modelled from the spec (section 3, Change): a change-log record. -/
inductive CKind where
  | insert
  | delete
  | update
deriving DecidableEq, Repr

/-- Modelled from the spec (section 3, Change): sequence number, kind,
row index, optional column name and before/after values. -/
structure Change where
  seq : Nat
  kind : CKind
  row : Nat
  col : Option String
  before : Option Value
  after : Option Value
deriving DecidableEq, Repr

/-- Modelled from the spec (section 3, Table): schema, columnar data
(one value list per schema column), the append-only change log and its
next sequence number, and the row count. -/
structure Table where
  schema : Schema
  cols : List (List Value)
  log : List Change
  nextSeq : Nat
  nrows : Nat
deriving DecidableEq, Repr

/-- Modelled from the spec (section 4.D): a single value is checked
against its column's declared type; null is rejected unless the column
is nullable, a non-null value of the wrong type is a `typeMismatch`. -/
def checkValue (c : ColSpec) (v : Value) : Except TError Unit :=
  if v.isNull then
    if c.nullable then .ok () else .error .nullViolation
  else if Value.typeOk c.ty v then .ok ()
  else .error .typeMismatch

/-- Modelled from the spec (section 4.G) and the repository test
test_append_rows_missing_column: a row map is validated against the
schema.  A missing column (even a nullable one, per the test) is a
`schemaViolation`; each present value is checked by `checkValue`.  On
success the values are returned in schema order. -/
def validateRow (s : Schema) (m : RowMap) : Except TError (List Value) :=
  match s with
  | [] => .ok []
  | c :: rest =>
    match m.lookup c.name with
    | none => .error .schemaViolation
    | some v =>
      match checkValue c v with
      | .error e => .error e
      | .ok _ =>
        match validateRow rest m with
        | .error e => .error e
        | .ok vs => .ok (v :: vs)

/-- Append one already-validated row (values in schema order) to the
columns, emit the Insert change, bump the row count. -/
def Table.appendVals (t : Table) (vs : List Value) : Table :=
  { t with
    cols := t.cols.zipWith (fun c v => c ++ [v]) vs
    log := t.log ++ [⟨t.nextSeq, .insert, t.nrows, none, none, none⟩]
    nextSeq := t.nextSeq + 1
    nrows := t.nrows + 1 }

/-- Modelled from the spec (section 4.G): append_row validates the row
map against the schema and, on success, appends to every column and
emits Insert with the new row index. -/
def Table.appendRow (t : Table) (m : RowMap) : Except TError Table :=
  match validateRow t.schema m with
  | .error e => .error e
  | .ok vs => .ok (t.appendVals vs)

/-- Modelled from the spec (sections 4.G and 7): append_rows validates
all rows first; on any failure nothing is written and the error is
returned, so the caller's table is untouched; if all rows validate,
every row is appended (one Insert change per row) and the number of
rows inserted is returned. -/
def Table.appendRows (t : Table) (rows : List RowMap) : Except TError (Table × Nat) :=
  match rows.mapM (validateRow t.schema) with
  | .error e => .error e
  | .ok valss => .ok (valss.foldl Table.appendVals t, rows.length)

/-- Index of a named column in the schema. -/
def Schema.colIdx (s : Schema) (name : String) : Option Nat :=
  s.findIdx? (fun c => c.name = name)

/-- The value stored at row `i` of the named column, if both exist. -/
def Table.cell? (t : Table) (i : Nat) (name : String) : Option Value :=
  match t.schema.colIdx name with
  | none => none
  | some j =>
    match t.cols.get? j with
    | none => none
    | some col => col.get? i

/-- The value of a cell as seen by the expression evaluator: a missing
column or row reads as null (spec section 4.H: unknown column names
evaluate to Null). -/
def Table.cellVal (t : Table) (i : Nat) (name : String) : Value :=
  (t.cell? i name).getD .null

/-- Modelled from the spec (section 4.G): set_value validates the new
value against the column's declared type and emits an Update change
with before and after images; a missing column or an out-of-range row
index is `outOfRange`.  (The no-op rule for before == after is part of
the model but irrelevant to the claims proved here.) -/
def Table.setValue (t : Table) (i : Nat) (name : String) (v : Value) : Except TError Table :=
  match t.schema.colIdx name with
  | none => .error .outOfRange
  | some j =>
    match (t.schema.get? j).map (fun c => checkValue c v) with
    | some (.error e) => .error e
    | _ =>
      if i < t.nrows then
        let before := t.cellVal i name
        if v = before then .ok t
        else
          .ok { t with
            cols := t.cols.modify (fun col => col.set i v) j
            log := t.log ++ [⟨t.nextSeq, .update, i, some name, some before, some v⟩]
            nextSeq := t.nextSeq + 1 }
      else .error .outOfRange

/-- Modelled from the spec (section 4.G): delete_row removes the row
from each column and emits Delete with the pre-image row index. -/
def Table.deleteRow (t : Table) (i : Nat) : Except TError Table :=
  if i < t.nrows then
    .ok { t with
      cols := t.cols.map (fun col => col.eraseIdx i)
      log := t.log ++ [⟨t.nextSeq, .delete, i, none, none, none⟩]
      nextSeq := t.nextSeq + 1
      nrows := t.nrows - 1 }
  else .error .outOfRange

/-- Three-valued truth values (spec section 4.H: three-valued logic). -/
inductive TV where
  | tt
  | ff
  | unk
deriving DecidableEq, Repr

/-- Kleene conjunction: false dominates, otherwise Null propagates. -/
def TV.and : TV → TV → TV
  | .ff, _ => .ff
  | _, .ff => .ff
  | .tt, .tt => .tt
  | _, _ => .unk

/-- Kleene disjunction: true dominates, otherwise Null propagates. -/
def TV.or : TV → TV → TV
  | .tt, _ => .tt
  | _, .tt => .tt
  | .ff, .ff => .ff
  | _, _ => .unk

/-- Kleene negation: Null propagates. -/
def TV.neg : TV → TV
  | .tt => .ff
  | .ff => .tt
  | .unk => .unk

/-- Comparison operators of the filter grammar. -/
inductive CmpOp where
  | eq
  | ne
  | lt
  | le
  | gt
  | ge
deriving DecidableEq, Repr

/-- Modelled from the spec (section 4.H): the typed AST of the
restricted filter grammar.  Comparisons compare a column against a
literal or against another column; IS NULL and IS NOT NULL are the
null tests. -/
inductive FExpr where
  | and (a b : FExpr)
  | or (a b : FExpr)
  | neg (a : FExpr)
  | cmp (col : String) (op : CmpOp) (lit : Value)
  | cmpCols (c1 : String) (op : CmpOp) (c2 : String)
  | isNull (col : String)
  | isNotNull (col : String)
deriving DecidableEq, Repr

/-- Modelled from the spec (section 4.H): a comparison on two non-null
operands; operands of incomparable shapes (different ranks, after
numeric coercion) yield Null. -/
def evalCmp (op : CmpOp) (a b : Value) : TV :=
  if a.isNull ∨ b.isNull then .unk
  else if a.rank = b.rank then
    let res : Bool :=
      match op with
      | .eq => decide (Value.veq a b)
      | .ne => decide (¬ Value.veq a b)
      | .lt => decide (Value.vlt a b)
      | .le => decide (Value.vlt a b ∨ Value.veq a b)
      | .gt => decide (Value.vlt b a)
      | .ge => decide (Value.vlt b a ∨ Value.veq a b)
    if res then .tt else .ff
  else .unk

/-- Modelled from the spec (section 4.H): evaluation of a filter
expression at row `i`; unknown columns read as Null via `cellVal`. -/
def evalFE (t : Table) (i : Nat) : FExpr → TV
  | .and a b => TV.and (evalFE t i a) (evalFE t i b)
  | .or a b => TV.or (evalFE t i a) (evalFE t i b)
  | .neg a => TV.neg (evalFE t i a)
  | .cmp c op lit => evalCmp op (t.cellVal i c) lit
  | .cmpCols c1 op c2 => evalCmp op (t.cellVal i c1) (t.cellVal i c2)
  | .isNull c => if (t.cellVal i c).isNull then .tt else .ff
  | .isNotNull c => if (t.cellVal i c).isNull then .ff else .tt

/-- Modelled from the spec (section 4.G, filter_expr): the indices of
the rows whose top-level expression value is explicitly true. -/
def Table.filterExpr (t : Table) (e : FExpr) : List Nat :=
  (List.range t.nrows).filter (fun i => evalFE t i e = .tt)

/-- Modelled from the spec (section 4.I): the state of a registered
filter view — a cursor into the change log, the compiled predicate and
the sorted kept set of parent row indices. -/
structure RView where
  cursor : Nat
  pred : FExpr
  kept : List Nat
deriving DecidableEq, Repr

/-- The column names referenced by a filter expression. -/
def FExpr.refs : FExpr → List String
  | .and a b => a.refs ++ b.refs
  | .or a b => a.refs ++ b.refs
  | .neg a => a.refs
  | .cmp c _ _ => [c]
  | .cmpCols c1 _ c2 => [c1, c2]
  | .isNull c => [c]
  | .isNotNull c => [c]

/-- Modelled from the spec (section 4.I): the incremental update of a
filter view's kept set for one change, reading rows from the parent
table.  Insert shifts indices up and inserts the new row when the
predicate holds; Delete removes and shifts down; Update reevaluates the
touched row's membership when the updated column is referenced. -/
def applyChange (t : Table) (pred : FExpr) (ks : List Nat) (c : Change) : List Nat :=
  match c.kind with
  | .insert =>
    let shifted := ks.map (fun k => if c.row ≤ k then k + 1 else k)
    if evalFE t c.row pred = .tt then List.orderedInsert (· ≤ ·) c.row shifted
    else shifted
  | .delete =>
    (ks.filter (fun k => k ≠ c.row)).map (fun k => if c.row < k then k - 1 else k)
  | .update =>
    match c.col with
    | none => ks
    | some name =>
      if name ∈ pred.refs then
        if evalFE t c.row pred = .tt then
          if c.row ∈ ks then ks else List.orderedInsert (· ≤ ·) c.row ks
        else ks.filter (fun k => k ≠ c.row)
      else ks

/-- Modelled from the spec (sections 4.F and 4.I): sync consumes the
pending suffix of the log (sequence numbers at or past the cursor),
applies each change to the kept set, and advances the cursor to the
log tail. -/
def RView.sync (v : RView) (t : Table) : RView :=
  let pending := t.log.filter (fun c => v.cursor ≤ c.seq)
  { v with
    kept := pending.foldl (applyChange t v.pred) v.kept
    cursor := t.nextSeq }

/-- A table together with its registered views (spec section 3, Table
owns the registered-view set). -/
structure VTable where
  tbl : Table
  views : List RView
deriving DecidableEq, Repr

/-- Modelled from the spec (sections 4.F and 4.G): tick syncs every
registered view in registration order, returns the count of views
synced (views with no pending changes included), then compacts the log
prefix strictly below the least cursor. -/
def VTable.tick (s : VTable) : VTable × Nat :=
  let vs := s.views.map (fun v => v.sync s.tbl)
  let minc := (vs.map RView.cursor).foldr min s.tbl.nextSeq
  ({ tbl := { s.tbl with log := s.tbl.log.filter (fun c => minc ≤ c.seq) }
     views := vs },
   s.views.length)

/-- Equivalence of key tuples, componentwise by `Value.veq`. -/
def tupEqv : List Value → List Value → Bool
  | [], [] => true
  | a :: as, b :: bs => decide (Value.veq a b) && tupEqv as bs
  | _, _ => false

/-- Modelled from the spec (section 4.L): the key tuple of a row for the
given key columns; a null (or missing) component excludes the row, so
the result is `none`. -/
def keyOf (t : Table) (keys : List String) (i : Nat) : Option (List Value) :=
  let vs := keys.map (fun c => t.cellVal i c)
  if vs.any Value.isNull then none else some vs

/-- Add a right row index under its key tuple in the build map. -/
def bucketAdd (m : List (List Value × List Nat)) (k : List Value) (j : Nat) :
    List (List Value × List Nat) :=
  match m with
  | [] => [(k, [j])]
  | e :: rest =>
    if tupEqv e.1 k then (e.1, e.2 ++ [j]) :: rest
    else e :: bucketAdd rest k j

/-- Modelled from the spec (section 4.L): the build structure, a map
from key tuple to the right row indices having that key; rows with a
null key component are excluded. -/
def buildBuckets (r : Table) (rk : List String) : List (List Value × List Nat) :=
  (List.range r.nrows).foldl
    (fun m j =>
      match keyOf r rk j with
      | none => m
      | some k => bucketAdd m k j)
    []

/-- The bucket of right row indices for a probe key. -/
def bucketGet (m : List (List Value × List Nat)) (k : List Value) : List Nat :=
  match m.find? (fun e => tupEqv e.1 k) with
  | some e => e.2
  | none => []

/-- Modelled from the spec (section 4.L, INNER): probe every left row
against the build map; each match emits one (left, right) pair; left
rows with a null key or with no match emit nothing. -/
def innerJoin (l r : Table) (lk rk : List String) : List (Nat × Nat) :=
  let m := buildBuckets r rk
  (List.range l.nrows).flatMap
    (fun i =>
      match keyOf l lk i with
      | none => []
      | some k => (bucketGet m k).map (fun j => (i, j)))

/-- Modelled from the spec (section 4.L, LEFT): as INNER, but a left
row with no match (including a null key) emits exactly one
(left, None) pair. -/
def leftJoin (l r : Table) (lk rk : List String) : List (Nat × Option Nat) :=
  let m := buildBuckets r rk
  (List.range l.nrows).flatMap
    (fun i =>
      match keyOf l lk i with
      | none => [(i, none)]
      | some k =>
        match (bucketGet m k).map (fun j => (i, some j)) with
        | [] => [(i, none)]
        | ps => ps)

/-- Whether left row `i` and right row `j` agree on all key components,
both keys being free of nulls. -/
def keyMatch (l r : Table) (lk rk : List String) (i j : Nat) : Bool :=
  match keyOf l lk i, keyOf r rk j with
  | some k1, some k2 => tupEqv k1 k2
  | _, _ => false

/-- Modelled from the spec (section 4.L, output schema): materialize an
emitted join row; left columns keep their names, right columns gain the
fixed prefix, and an absent right side renders every right column
null. -/
def joinRow (l r : Table) (p : Nat × Option Nat) : RowMap :=
  (l.schema.map (fun c => (c.name, l.cellVal p.1 c.name))) ++
    (r.schema.map (fun c =>
      ("right_" ++ c.name,
        match p.2 with
        | some j => r.cellVal j c.name
        | none => Value.null)))

/-- The values of the named column of a table (empty if absent). -/
def Table.colVals (t : Table) (name : String) : List Value :=
  match t.schema.colIdx name with
  | none => []
  | some j => (t.cols.get? j).getD []

/-- Modelled from the spec (section 4.G): the non-null numeric values
of a column, read through the as_f64 fast path. -/
def Table.numsOf (t : Table) (name : String) : List Q :=
  (t.colVals name).filterMap Value.asNum

/-- Modelled from the spec (section 4.G): sum over the as_f64 values;
zero on an empty column. -/
def Table.sumCol (t : Table) (name : String) : Q :=
  (t.numsOf name).foldl Q.add (Q.ofInt 0)

/-- Modelled from the spec (section 4.G): count of non-null values. -/
def Table.countNonNull (t : Table) (name : String) : Nat :=
  (t.numsOf name).length

/-- Division of a `Q` by a positive natural number. -/
def Q.divNat (a : Q) (k : Nat) : Q :=
  if h : 0 < k then ⟨a.n, a.d * k, Nat.mul_pos a.dpos h⟩ else a

/-- Modelled from the spec (section 4.G): average, `none` when the
column has no non-null values. -/
def Table.avgCol (t : Table) (name : String) : Option Q :=
  match t.numsOf name with
  | [] => none
  | vs => some ((vs.foldl Q.add (Q.ofInt 0)).divNat vs.length)

/-- Modelled from the spec (section 4.G): minimum, `none` when the
column has no non-null values. -/
def Table.minCol (t : Table) (name : String) : Option Q :=
  match t.numsOf name with
  | [] => none
  | x :: xs => some (xs.foldl (fun m y => if Q.lt y m then y else m) x)

/-- Modelled from the spec (section 4.G): maximum, `none` when the
column has no non-null values. -/
def Table.maxCol (t : Table) (name : String) : Option Q :=
  match t.numsOf name with
  | [] => none
  | x :: xs => some (xs.foldl (fun m y => if Q.lt m y then y else m) x)

/-- Modelled from the spec (section 4.M): percentile at rank q over the
sorted vector v by linear interpolation: idx = q*(k-1), lo = floor idx,
hi = lo+1, frac = idx - lo, result = v[lo] + frac*(v[hi]-v[lo]), with
v[hi] = v[lo] when lo = k-1; null (none) on an empty vector. -/
def percentileOf (q : Q) (v : List Q) : Option Q :=
  match v with
  | [] => none
  | _ :: _ =>
    let k := v.length
    let idx := Q.mul q (Q.ofInt ((k : Int) - 1))
    let lo := idx.floor.toNat
    let vlo := v.getD lo (Q.ofInt 0)
    let vhi := if lo + 1 ≤ k - 1 then v.getD (lo + 1) (Q.ofInt 0) else vlo
    let frac := Q.sub idx (Q.ofInt idx.floor)
    some (Q.add vlo (Q.mul frac (Q.sub vhi vlo)))

/-- Modelled from the spec (section 4.M): the per-group ordered
multiset of non-null source values is kept sorted; a percentile query
sorts ascending and interpolates. -/
def percentileAgg (q : Q) (vals : List Q) : Option Q :=
  percentileOf q (vals.insertionSort Q.le)

/-- The claim's interpolation formula, stated verbatim for comparison
with `percentileOf`: idx = q*(k-1), lo = floor idx, hi = lo+1, frac =
idx - lo, result = v[lo] + frac*(v[hi]-v[lo]) with v[hi] = v[lo] when
lo = k-1. -/
def pformula (q : Q) (v : List Q) : Q :=
  let idx := Q.mul q (Q.ofInt ((v.length : Int) - 1))
  let lo := idx.floor.toNat
  let vlo := v.getD lo (Q.ofInt 0)
  let vhi := if lo + 1 ≤ v.length - 1 then v.getD (lo + 1) (Q.ofInt 0) else vlo
  Q.add vlo (Q.mul (Q.sub idx (Q.ofInt idx.floor)) (Q.sub vhi vlo))

/-- Modelled from the spec (sections 4.M and 6): the structured
aggregate functions. -/
inductive AggFn where
  | sum
  | avg
  | count
  | min
  | max
  | percentile (q : Q)
deriving DecidableEq, Repr

/-- Modelled from the spec (section 4.M): the fixed shorthand strings
recognized at the view-construction boundary; median is percentile
0.5 and pNN is percentile NN/100. -/
def parseShorthand : String → Option AggFn
  | "sum" => some .sum
  | "avg" => some .avg
  | "count" => some .count
  | "min" => some .min
  | "max" => some .max
  | "median" => some (.percentile ⟨1, 2, Nat.succ_pos 1⟩)
  | "p25" => some (.percentile ⟨1, 4, Nat.succ_pos 3⟩)
  | "p50" => some (.percentile ⟨1, 2, Nat.succ_pos 1⟩)
  | "p75" => some (.percentile ⟨3, 4, Nat.succ_pos 3⟩)
  | "p90" => some (.percentile ⟨9, 10, Nat.succ_pos 9⟩)
  | "p95" => some (.percentile ⟨19, 20, Nat.succ_pos 19⟩)
  | "p99" => some (.percentile ⟨99, 100, Nat.succ_pos 99⟩)
  | _ => none

/-- Modelled from the spec (sections 4.M and 7): the percentile(q)
boundary check; q outside [0,1] is an `unknownAggregate` error. -/
def mkPercentile (q : Q) : Except TError AggFn :=
  if Q.le (Q.ofInt 0) q ∧ Q.le q (Q.ofInt 1) then .ok (.percentile q)
  else .error .unknownAggregate

/-- Modelled from the spec (section 4.C): the reference-counted string
interner; each entry is (string, id, refcount) with refcount kept
strictly positive, and ids are handed out from a monotone counter and
never reused. -/
structure Interner where
  entries : List (String × Nat × Nat)
  nextId : Nat
deriving DecidableEq, Repr

/-- Modelled from the spec (section 4.C): intern returns the id of the
string, incrementing its refcount, creating a fresh entry with
refcount one when the string is new. -/
def Interner.intern (it : Interner) (s : String) : Interner × Nat :=
  match it.entries.find? (fun e => e.1 = s) with
  | some e =>
    ({ it with
       entries := it.entries.map (fun e0 =>
         if e0.1 = s then (e0.1, e0.2.1, e0.2.2 + 1) else e0) },
     e.2.1)
  | none =>
    (⟨it.entries ++ [(s, it.nextId, 1)], it.nextId + 1⟩, it.nextId)

/-- Modelled from the spec (section 4.C): release decrements the
refcount of the id and unmaps it when the count reaches zero. -/
def Interner.release (it : Interner) (id : Nat) : Interner :=
  { it with
    entries :=
      (it.entries.map (fun e =>
        if e.2.1 = id then (e.1, e.2.1, e.2.2 - 1) else e)).filter
        (fun e => 0 < e.2.2) }

/-- Modelled from the spec (sections 4.C and 8): the total_references
statistic, the sum of all live refcounts. -/
def Interner.totalReferences (it : Interner) : Nat :=
  (it.entries.map (fun e => e.2.2)).sum

/-- Modelled from the spec (sections 4.C and 8): the unique_strings
statistic, the number of ids whose refcount is positive. -/
def Interner.uniqueStrings (it : Interner) : Nat :=
  (it.entries.filter (fun e => 0 < e.2.2)).length

/-- The string columns of an interning-enabled table: each cell is
either null or the id of an interned string.  Columns of non-string
type never touch the interner (spec section 6: interning affects only
string columns), so only the string columns are modelled. -/
structure ITable where
  intr : Interner
  cols : List (List (Option Nat))
deriving DecidableEq, Repr

/-- Intern one row of optional strings left to right, returning the
resulting interner and the cells to store. -/
def internMany (it : Interner) (vals : List (Option String)) :
    Interner × List (Option Nat) :=
  match vals with
  | [] => (it, [])
  | none :: rest =>
    let (it1, cs) := internMany it rest
    (it1, none :: cs)
  | some s :: rest =>
    let (it1, id) := it.intern s
    let (it2, cs) := internMany it1 rest
    (it2, some id :: cs)

/-- Modelled from the spec (sections 4.D and 4.G): append_row on the
string columns interns each non-null string and stores the ids; a row
of the wrong width fails validation and mutates nothing. -/
def ITable.appendIRow (t : ITable) (vals : List (Option String)) : ITable :=
  if vals.length = t.cols.length then
    let p := internMany t.intr vals
    ⟨p.1, t.cols.zipWith (fun col c => col ++ [c]) p.2⟩
  else t

/-- The cell of an interned table, when the coordinates are in range. -/
def ITable.cellId (t : ITable) (r c : Nat) : Option (Option Nat) :=
  (t.cols.get? c).bind (fun col => col.get? r)

/-- Modelled from the spec (section 4.D): set first interns the new
value, then releases the old id, in that order; an out-of-range
coordinate is a typed error and mutates nothing. -/
def ITable.setIValue (t : ITable) (r c : Nat) (v : Option String) : ITable :=
  match t.cellId r c with
  | none => t
  | some old =>
    let p : Interner × Option Nat :=
      match v with
      | none => (t.intr, none)
      | some s =>
        let q := t.intr.intern s
        (q.1, some q.2)
    let it2 : Interner :=
      match old with
      | some oldId => p.1.release oldId
      | none => p.1
    ⟨it2, t.cols.modify (fun col => col.set r p.2) c⟩

/-- Modelled from the spec (sections 4.D and 4.G): delete_row releases
the id held by every non-null string cell of the row and removes the
row from each column. -/
def ITable.deleteIRow (t : ITable) (r : Nat) : ITable :=
  let ids := t.cols.filterMap (fun col => (col.get? r).bind (fun c => c))
  ⟨ids.foldl Interner.release t.intr, t.cols.map (fun col => col.eraseIdx r)⟩

/-- Host-visible mutations of the interned string columns. -/
inductive IOp where
  | append (vals : List (Option String))
  | set (r c : Nat) (v : Option String)
  | del (r : Nat)
deriving DecidableEq, Repr

/-- Apply one mutation. -/
def IStep (t : ITable) : IOp → ITable
  | .append vals => t.appendIRow vals
  | .set r c v => t.setIValue r c v
  | .del r => t.deleteIRow r

/-- A freshly created interning-enabled table with `ncols` string
columns. -/
def ITable.init (ncols : Nat) : ITable :=
  ⟨⟨[], 0⟩, List.replicate ncols []⟩

/-- Run a sequence of mutations from a fresh table. -/
def IRun (ncols : Nat) (ops : List IOp) : ITable :=
  ops.foldl IStep (ITable.init ncols)

/-- The number of non-null string cells of the table. -/
def ITable.cellCount (t : ITable) : Nat :=
  (t.cols.map (fun col => col.countP Option.isSome)).sum

/-- The multiset (as a list) of interned ids held by the non-null
string cells of the table. -/
def ITable.cellsOf (t : ITable) : List Nat :=
  t.cols.flatten.filterMap (fun c => c)

/-- Coherence of an interner with the multiset of ids held by the
table's cells: every entry has a positive refcount equal to the number
of cells holding its id and an id below the allocation counter,
strings and ids are registered at most once, and every id held by a
cell has an entry. -/
def IntCoherent (it : Interner) (cells : List Nat) : Prop :=
  (∀ e ∈ it.entries, 0 < e.2.2 ∧ e.2.2 = cells.count e.2.1 ∧ e.2.1 < it.nextId) ∧
  (it.entries.map (fun e => e.1)).Nodup ∧
  (it.entries.map (fun e => e.2.1)).Nodup ∧
  (∀ x ∈ cells, ∃ e ∈ it.entries, e.2.1 = x)

/-- Modelled from the spec (sections 4.K and 6): one component of a
sort key spec: column, direction, and optional caller override of the
null placement. -/
structure SortKey where
  col : String
  desc : Bool
  nullsFirst : Option Bool
deriving DecidableEq, Repr

/-- The effective null placement of a key: the caller's override when
given, else nulls-last for ascending and nulls-first for descending
(spec section 4.K). -/
def SortKey.nf (k : SortKey) : Bool := k.nullsFirst.getD k.desc

/-- Null-placement band of a value under a null placement flag: nulls
go to band 0 when nulls-first, band 2 when nulls-last; non-null values
are band 1. -/
def nullPlace (nf : Bool) (v : Value) : Nat :=
  if v.isNull then (if nf then 0 else 2) else 1

/-- Modelled from the spec (section 4.K): strict comparison of two key
cells — null placement first, then the value order, reversed for a
descending key. -/
def cellLT (k : SortKey) (a b : Value) : Bool :=
  decide (nullPlace k.nf a < nullPlace k.nf b) ||
    (decide (nullPlace k.nf a = nullPlace k.nf b) && !a.isNull && !b.isNull &&
      (if k.desc then decide (Value.vlt b a) else decide (Value.vlt a b)))

/-- Equivalence of two key cells: both null, or both non-null and
equivalent values. -/
def cellEQ (a b : Value) : Bool :=
  (a.isNull && b.isNull) || (!a.isNull && !b.isNull && decide (Value.veq a b))

/-- Modelled from the spec (section 4.K): the lexicographic
non-strict comparison of two rows under a key spec. -/
def rowLE (t : Table) (ks : List SortKey) (i j : Nat) : Bool :=
  match ks with
  | [] => true
  | k :: rest =>
    cellLT k (t.cellVal i k.col) (t.cellVal j k.col) ||
      (cellEQ (t.cellVal i k.col) (t.cellVal j k.col) && rowLE t rest i j)

/-- Modelled from the spec (section 4.K): construction of a SortedView
sorts the parent row indices stably by the key spec. -/
def sortedView (t : Table) (ks : List SortKey) : List Nat :=
  List.insertionSort (fun i j => rowLE t ks i j = true) (List.range t.nrows)

/-- Whether a row map validates against a schema. -/
def rowOk (s : Schema) (m : RowMap) : Bool :=
  (validateRow s m).isOk

/-- The schema of the bulk-operation test fixture: id int32 not null,
name string not null, score float64 nullable. -/
def sampleSchema : Schema :=
  [⟨"id", .int, false⟩, ⟨"name", .str, false⟩, ⟨"score", .float, true⟩]

/-- The empty test table over `sampleSchema`. -/
def emptyT : Table :=
  ⟨sampleSchema, [[], [], []], [], 0, 0⟩

/-- Two valid rows of the bulk-insert test. -/
def goodRows : List RowMap :=
  [[("id", .int 1), ("name", .str "Alice"), ("score", .float ⟨191, 2, Nat.succ_pos 1⟩)],
   [("id", .int 2), ("name", .str "Bob"), ("score", .null)]]

/-- The failing batch of test_append_rows_missing_column: the second
row lacks the score column. -/
def badRows : List RowMap :=
  [[("id", .int 1), ("name", .str "Alice"), ("score", .float ⟨191, 2, Nat.succ_pos 1⟩)],
   [("id", .int 2), ("name", .str "Bob")]]

/-- The failing input of test_append_rows_type_mismatch: id bound to a
string instead of an integer. -/
def typeBadRow : RowMap :=
  [("id", .str "not an int"), ("name", .str "Alice"), ("score", .float ⟨191, 2, Nat.succ_pos 1⟩)]

/-- The failing batch of test_append_rows_type_mismatch. -/
def typeBadRows : List RowMap :=
  [typeBadRow]

/-- A one-row table over `sampleSchema` (row id=1, name=Alice,
score=95.5). -/
def oneRowT : Table :=
  ⟨sampleSchema,
   [[.int 1], [.str "Alice"], [.float ⟨191, 2, Nat.succ_pos 1⟩]],
   [⟨0, .insert, 0, none, none, none⟩], 1, 1⟩

/-- A table with one registered filter view whose cursor has not yet
consumed the pending Insert change. -/
def tickFixture : VTable :=
  ⟨oneRowT, [⟨0, FExpr.isNotNull "id", []⟩]⟩

/-- The table of scenario S5: rows (1, 25, true), (2, null, true),
(3, 30, false) over (id, age nullable, active). -/
def s5Table : Table :=
  ⟨[⟨"id", .int, false⟩, ⟨"age", .int, true⟩, ⟨"active", .bool, false⟩],
   [[.int 1, .int 2, .int 3],
    [.int 25, .null, .int 30],
    [.bool true, .bool true, .bool false]],
   [], 3, 3⟩

/-- The predicate of scenario S5: age > 20 AND active = true. -/
def s5Expr : FExpr :=
  .and (.cmp "age" .gt (.int 20)) (.cmp "active" .eq (.bool true))

/-- The four-row table of the sorted-view null tests: ages 30, null,
25, null. -/
def sortAgeT : Table :=
  ⟨[⟨"name", .str, false⟩, ⟨"age", .int, true⟩],
   [[.str "Alice", .str "Bob", .str "Charlie", .str "Dana"],
    [.int 30, .null, .int 25, .null]],
   [], 4, 4⟩

/-- The key relation of a right row against a probe key: the row's key
tuple exists (no nulls) and is componentwise equivalent to the probe
key. -/
def keyRel (r : Table) (rk : List String) (j : Nat) (k : List Value) : Bool :=
  match keyOf r rk j with
  | some kj => tupEqv kj k
  | none => false

/-- The left table of scenario S4: two rows with the same key (1,2). -/
def s4Left : Table :=
  ⟨[⟨"a", .int, false⟩, ⟨"b", .int, false⟩, ⟨"lv", .str, false⟩],
   [[.int 1, .int 1], [.int 2, .int 2], [.str "L1", .str "L2"]],
   [], 2, 2⟩

/-- The right table of scenario S4: two rows with the same key (1,2). -/
def s4Right : Table :=
  ⟨[⟨"x", .int, false⟩, ⟨"y", .int, false⟩, ⟨"rv", .str, false⟩],
   [[.int 1, .int 1], [.int 2, .int 2], [.str "R1", .str "R2"]],
   [], 2, 2⟩

/-- Whether left row `i` has at least one matching right row in the
build map (used to decide LEFT fallback emission). -/
def hasMatch (l r : Table) (lk rk : List String) (i : Nat) : Bool :=
  match keyOf l lk i with
  | none => false
  | some k => decide (bucketGet (buildBuckets r rk) k ≠ [])

/-- The users table of scenario S3: (1, Alice), (2, Bob), (3, Carol). -/
def s3Users : Table :=
  ⟨[⟨"id", .int, false⟩, ⟨"name", .str, false⟩],
   [[.int 1, .int 2, .int 3], [.str "Alice", .str "Bob", .str "Carol"]],
   [], 3, 3⟩

/-- The orders table of scenario S3: (1, 10.0), (2, 20.0) keyed by
user_id. -/
def s3Orders : Table :=
  ⟨[⟨"user_id", .int, false⟩, ⟨"amount", .float, false⟩],
   [[.int 1, .int 2], [.float ⟨10, 1, Nat.one_pos⟩, .float ⟨20, 1, Nat.one_pos⟩]],
   [], 2, 2⟩

/-- The orders table of scenario S3 after deleting row 0 (the order of
user 1). -/
def s3OrdersDel : Table :=
  ⟨[⟨"user_id", .int, false⟩, ⟨"amount", .float, false⟩],
   [[.int 2], [.float ⟨20, 1, Nat.one_pos⟩]],
   [⟨2, .delete, 0, none, none, none⟩], 3, 1⟩

/-- The left table of test_join_with_null_values_in_key: the second
row has a null in key column a. -/
def nullKeyLeft : Table :=
  ⟨[⟨"a", .int, true⟩, ⟨"b", .int, false⟩, ⟨"val", .str, false⟩],
   [[.int 1, .null], [.int 2, .int 2], [.str "match", .str "no_match"]],
   [], 2, 2⟩

/-- The right table of test_join_with_null_values_in_key: the second
row has a null in key column x. -/
def nullKeyRight : Table :=
  ⟨[⟨"x", .int, true⟩, ⟨"y", .int, false⟩, ⟨"data", .str, false⟩],
   [[.int 1, .null], [.int 2, .int 2], [.str "found", .str "not_found"]],
   [], 2, 2⟩

/-- The three string-column appends of
test_multiple_string_columns_share_interner (first/last/city, with
"Smith", "John" and "London" repeated across rows): 9 non-null cells
over 6 distinct strings. -/
def iDemoOps : List IOp :=
  [.append [some "John", some "Smith", some "London"],
   .append [some "Jane", some "Smith", some "Paris"],
   .append [some "John", some "Doe", some "London"]]

/-! Transfer lemmas for the executable rationals. -/

theorem Q.den_ne (a : Q) : ((a.d : ℚ)) ≠ 0 := by
  exact_mod_cast a.dpos.ne'

theorem Q.le_iff (a b : Q) : Q.le a b ↔ a.toRat ≤ b.toRat := by
  unfold Q.le Q.toRat
  rw [div_le_div_iff₀ (by exact_mod_cast a.dpos) (by exact_mod_cast b.dpos)]
  exact_mod_cast Iff.rfl

theorem Q.lt_iff (a b : Q) : Q.lt a b ↔ a.toRat < b.toRat := by
  unfold Q.lt Q.toRat
  rw [div_lt_div_iff₀ (by exact_mod_cast a.dpos) (by exact_mod_cast b.dpos)]
  exact_mod_cast Iff.rfl

theorem Q.eqv_iff (a b : Q) : Q.eqv a b ↔ a.toRat = b.toRat := by
  unfold Q.eqv Q.toRat
  rw [div_eq_div_iff (Q.den_ne a) (Q.den_ne b)]
  exact_mod_cast Iff.rfl

theorem Q.toRat_ofInt (n : Int) : (Q.ofInt n).toRat = (n : ℚ) := by
  simp [Q.ofInt, Q.toRat]

theorem Q.toRat_add (a b : Q) : (Q.add a b).toRat = a.toRat + b.toRat := by
  unfold Q.add Q.toRat
  have ha := Q.den_ne a
  have hb := Q.den_ne b
  push_cast
  field_simp

theorem Q.toRat_sub (a b : Q) : (Q.sub a b).toRat = a.toRat - b.toRat := by
  unfold Q.sub Q.toRat
  have ha := Q.den_ne a
  have hb := Q.den_ne b
  push_cast
  field_simp
  ring

theorem Q.toRat_mul (a b : Q) : (Q.mul a b).toRat = a.toRat * b.toRat := by
  unfold Q.mul Q.toRat
  have ha := Q.den_ne a
  have hb := Q.den_ne b
  push_cast
  field_simp

/-- The executable floor agrees with the mathematical floor of the
denoted rational. -/
theorem Q.floor_eq (a : Q) : a.floor = ⌊a.toRat⌋ := by
  rw [Q.toRat, Rat.floor_intCast_div_natCast, Q.floor]
  exact Int.fdiv_eq_ediv _ (by exact_mod_cast Nat.zero_le a.d)

/-! C1: append_rows is all-or-nothing. -/

theorem validateRow_length (s : Schema) (m : RowMap) (vs : List Value)
    (h : validateRow s m = .ok vs) : vs.length = s.length := by
  induction s generalizing vs with
  | nil => simp [validateRow] at h; simp [← h]
  | cons c rest ih =>
    cases hl : m.lookup c.name with
    | none => simp [validateRow, hl] at h
    | some v =>
      cases hc : checkValue c v with
      | error e => simp [validateRow, hl, hc] at h
      | ok u =>
        cases hr : validateRow rest m with
        | error e => simp [validateRow, hl, hc, hr] at h
        | ok vs0 =>
          simp only [validateRow, hl, hc, hr] at h
          cases h
          simpa using ih vs0 hr

theorem mapM_validate_ok (s : Schema) (rows : List RowMap)
    (h : rows.all (rowOk s) = true) :
    ∃ vss : List (List Value),
      rows.mapM (validateRow s) = .ok vss ∧ vss.length = rows.length := by
  induction rows with
  | nil => exact ⟨[], rfl, rfl⟩
  | cons m rest ih =>
    simp only [List.all_cons, Bool.and_eq_true] at h
    obtain ⟨h1, h2⟩ := h
    obtain ⟨vss, hvss, hlen⟩ := ih h2
    unfold rowOk Except.isOk Except.toBool at h1
    cases hv : validateRow s m with
    | error e => rw [hv] at h1; simp at h1
    | ok vs =>
      refine ⟨vs :: vss, ?_, by simpa using hlen⟩
      rw [List.mapM_cons, hv, hvss]
      rfl

theorem mapM_validate_err (s : Schema) (rows : List RowMap)
    (h : rows.all (rowOk s) = false) :
    ∃ e, rows.mapM (validateRow s) = .error e := by
  induction rows with
  | nil => simp at h
  | cons m rest ih =>
    simp only [List.all_cons, Bool.and_eq_false_iff] at h
    unfold rowOk Except.isOk Except.toBool at h
    cases hv : validateRow s m with
    | error e =>
      refine ⟨e, ?_⟩
      rw [List.mapM_cons, hv]
      rfl
    | ok vs =>
      rw [hv] at h
      rcases h with h1 | h2
      · simp at h1
      · obtain ⟨e, he⟩ := ih h2
        refine ⟨e, ?_⟩
        rw [List.mapM_cons, hv, he]
        rfl

theorem appendVals_basic (t : Table) (vs : List Value) :
    (t.appendVals vs).nrows = t.nrows + 1 ∧
    (t.appendVals vs).schema = t.schema ∧
    (t.appendVals vs).log = t.log ++ [⟨t.nextSeq, .insert, t.nrows, none, none, none⟩] :=
  ⟨rfl, rfl, rfl⟩

theorem foldl_appendVals_props (vss : List (List Value)) (t : Table) :
    (vss.foldl Table.appendVals t).nrows = t.nrows + vss.length ∧
    (vss.foldl Table.appendVals t).schema = t.schema ∧
    ∃ suffix : List Change,
      (vss.foldl Table.appendVals t).log = t.log ++ suffix ∧
      suffix.length = vss.length ∧
      ∀ c ∈ suffix, c.kind = CKind.insert := by
  induction vss generalizing t with
  | nil => exact ⟨rfl, rfl, [], by simp, rfl, by simp⟩
  | cons vs rest ih =>
    obtain ⟨hn, hs, suffix, hlog, hslen, hkind⟩ := ih (t.appendVals vs)
    refine ⟨?_, by simpa using hs, ?_⟩
    · rw [List.foldl_cons, hn]
      show t.nrows + 1 + rest.length = t.nrows + (vs :: rest).length
      simp
      omega
    refine ⟨⟨t.nextSeq, .insert, t.nrows, none, none, none⟩ :: suffix, ?_, by simpa using hslen, ?_⟩
    · simpa [Table.appendVals] using hlog
    · intro c hc
      rcases List.mem_cons.mp hc with h | h
      · rw [h]
      · exact hkind c h

/-- C1.  For every table and list of row maps, append_rows validates
the whole batch before any write: when some row fails validation the
call returns a typed error and produces no new table state — no column
write and no log append happen, the caller's table is untouched; when
all rows validate, the call returns the inserted-row count, the row
count grows by exactly that count, the log is extended by exactly one
Insert change per row, and the schema is unchanged. -/
theorem appendRows_all_or_nothing (t : Table) (rows : List RowMap) :
    (rows.all (rowOk t.schema) = false →
      ∃ e, t.appendRows rows = .error e) ∧
    (rows.all (rowOk t.schema) = true →
      ∃ t2, t.appendRows rows = .ok (t2, rows.length) ∧
        t2.nrows = t.nrows + rows.length ∧
        t2.schema = t.schema ∧
        ∃ suffix : List Change,
          t2.log = t.log ++ suffix ∧
          suffix.length = rows.length ∧
          ∀ c ∈ suffix, c.kind = CKind.insert) := by
  constructor
  · intro h
    obtain ⟨e, he⟩ := mapM_validate_err t.schema rows h
    exact ⟨e, by unfold Table.appendRows; rw [he]⟩
  · intro h
    obtain ⟨vss, hvss, hlen⟩ := mapM_validate_ok t.schema rows h
    obtain ⟨hn, hs, suffix, hlog, hslen, hkind⟩ := foldl_appendVals_props vss t
    refine ⟨vss.foldl Table.appendVals t, ?_, by rw [hn, hlen], hs,
      suffix, hlog, by rw [hslen, hlen], hkind⟩
    unfold Table.appendRows
    rw [hvss]

/-- Witness for C1 at the fixtures of the bulk-insert tests: the batch
with a missing column errors, and the two-row valid batch inserts two
rows with two Insert changes. -/
theorem appendRows_all_or_nothing_witness :
    (∃ e, emptyT.appendRows badRows = .error e) ∧
    (∃ t2, emptyT.appendRows goodRows = .ok (t2, 2) ∧
      t2.nrows = emptyT.nrows + 2 ∧
      t2.schema = emptyT.schema ∧
      ∃ suffix : List Change,
        t2.log = emptyT.log ++ suffix ∧
        suffix.length = 2 ∧
        ∀ c ∈ suffix, c.kind = CKind.insert) := by
  constructor
  · exact (appendRows_all_or_nothing emptyT badRows).1 (by decide)
  · exact (appendRows_all_or_nothing emptyT goodRows).2 (by decide)

/-! C3: type mismatches surface as the typed error TypeMismatch. -/

theorem validateRow_typeMismatch (s : Schema) (m : RowMap)
    (hall : ∀ c ∈ s, ∃ v, m.lookup c.name = some v ∧ (v.isNull = true → c.nullable = true))
    (hbad : ∃ c ∈ s, ∃ v, m.lookup c.name = some v ∧ v.isNull = false ∧
      Value.typeOk c.ty v = false) :
    validateRow s m = .error .typeMismatch := by
  induction s with
  | nil => simp at hbad
  | cons c rest ih =>
    obtain ⟨v, hv, hnul⟩ := hall c (List.mem_cons_self c rest)
    by_cases hn : v.isNull = true
    · have hok : checkValue c v = .ok () := by
        unfold checkValue
        rw [hn, hnul hn]
        simp
      have hrest : validateRow rest m = .error .typeMismatch := by
        apply ih
        · intro c0 hc0
          exact hall c0 (List.mem_cons_of_mem c hc0)
        · obtain ⟨c0, hc0, v0, hv0, hnn0, hty0⟩ := hbad
          rcases List.mem_cons.mp hc0 with rfl | hmem
          · rw [hv] at hv0
            cases hv0
            rw [hn] at hnn0
            cases hnn0
          · exact ⟨c0, hmem, v0, hv0, hnn0, hty0⟩
      simp [validateRow, hv, hok, hrest]
    · replace hn : v.isNull = false := by
        cases h0 : v.isNull
        · rfl
        · exact absurd h0 hn
      by_cases hty : Value.typeOk c.ty v = true
      · have hok : checkValue c v = .ok () := by
          unfold checkValue
          rw [hn, hty]
          simp
        have hrest : validateRow rest m = .error .typeMismatch := by
          apply ih
          · intro c0 hc0
            exact hall c0 (List.mem_cons_of_mem c hc0)
          · obtain ⟨c0, hc0, v0, hv0, hnn0, hty0⟩ := hbad
            rcases List.mem_cons.mp hc0 with rfl | hmem
            · rw [hv] at hv0
              cases hv0
              rw [hty] at hty0
              cases hty0
            · exact ⟨c0, hmem, v0, hv0, hnn0, hty0⟩
        simp [validateRow, hv, hok, hrest]
      · have herr : checkValue c v = .error .typeMismatch := by
          unfold checkValue
          rw [hn]
          simp only [Bool.false_eq_true, if_false]
          rw [Bool.not_eq_true] at hty
          rw [hty]
          simp
        simp [validateRow, hv, herr]

/-- C3.  In the spec's failure semantics, a value of the wrong declared
type makes each write operation fail with the typed error TypeMismatch
and return no new state: append_row and append_rows on a row whose
columns are all present and null-compatible but one of which has a
mismatched non-null value, and set_value on a mismatched non-null
value for an existing column, all return Except.error typeMismatch —
the untouched input table remains the caller's state.  (The shipped
test-suite instead documents a panic for append_rows; see the claim's
code_bug record.) -/
theorem typeMismatch_typed_error (t : Table) (m : RowMap) (i : Nat)
    (name : String) (v : Value) (c : ColSpec) (j : Nat) :
    ((∀ c0 ∈ t.schema, ∃ v0, m.lookup c0.name = some v0 ∧
        (v0.isNull = true → c0.nullable = true)) →
     (∃ c0 ∈ t.schema, ∃ v0, m.lookup c0.name = some v0 ∧ v0.isNull = false ∧
        Value.typeOk c0.ty v0 = false) →
      t.appendRow m = .error .typeMismatch ∧
      t.appendRows [m] = .error .typeMismatch) ∧
    (t.schema.colIdx name = some j → t.schema.get? j = some c →
     v.isNull = false → Value.typeOk c.ty v = false →
      t.setValue i name v = .error .typeMismatch) := by
  constructor
  · intro hall hbad
    have hv := validateRow_typeMismatch t.schema m hall hbad
    constructor
    · unfold Table.appendRow
      rw [hv]
    · unfold Table.appendRows
      rw [List.mapM_cons, hv]
      rfl
  · intro hidx hget hnn hty
    have herr : checkValue c v = .error .typeMismatch := by
      unfold checkValue
      rw [hnn]
      simp only [Bool.false_eq_true, if_false]
      rw [hty]
      simp
    unfold Table.setValue
    simp only [hidx, hget, Option.map_some', herr]

/-- Witness for C3 at the fixture of test_append_rows_type_mismatch
(id bound to a string) and at set_value of a string into the integer
id column of a one-row table. -/
theorem typeMismatch_typed_error_witness :
    (emptyT.appendRow typeBadRow = .error .typeMismatch ∧
     emptyT.appendRows [typeBadRow] = .error .typeMismatch) ∧
    oneRowT.setValue 0 "id" (.str "x") = .error .typeMismatch := by
  constructor
  · exact (typeMismatch_typed_error emptyT typeBadRow 0 "id" (.str "x")
      ⟨"id", .int, false⟩ 0).1 (by decide) (by decide)
  · exact (typeMismatch_typed_error oneRowT typeBadRow 0 "id" (.str "x")
      ⟨"id", .int, false⟩ 0).2 (by decide) (by decide) (by decide) (by decide)

/-! C2: a second tick with no intervening mutation is a no-op. -/

theorem tick_views (s : VTable) :
    s.tick.1.views = s.views.map (fun v => v.sync s.tbl) := rfl

theorem tick_count (s : VTable) : s.tick.2 = s.views.length := rfl

theorem tick_tbl_log_subset (s : VTable) (c : Change) (hc : c ∈ s.tick.1.tbl.log) :
    c ∈ s.tbl.log := by
  simp only [VTable.tick] at hc
  exact List.mem_of_mem_filter hc

theorem sync_no_pending (v : RView) (t : Table)
    (hcur : v.cursor = t.nextSeq)
    (hlog : ∀ c ∈ t.log, c.seq < t.nextSeq) :
    v.sync t = v := by
  have hpend : t.log.filter (fun c => decide (v.cursor ≤ c.seq)) = [] := by
    apply List.filter_eq_nil_iff.mpr
    intro c hc
    simp only [decide_eq_true_eq, not_le, hcur]
    exact hlog c hc
  unfold RView.sync
  rw [hpend]
  simp [← hcur]

/-- C2.  For every table with at least one registered view whose log
sequence numbers are in range, two successive ticks with no mutation
in between satisfy: the second tick returns a synced-count equal to the
number of registered views (views with no pending changes included),
and leaves every view's state — and the parent columns and row count
each view's rows read through — unchanged from after the first
tick. -/
theorem tick_twice_no_op (s : VTable)
    (hwf : ∀ c ∈ s.tbl.log, c.seq < s.tbl.nextSeq)
    ( _hv : 0 < s.views.length) :
    s.tick.1.tick.2 = s.views.length ∧
    s.tick.1.tick.1.views = s.tick.1.views ∧
    s.tick.1.tick.1.tbl.cols = s.tick.1.tbl.cols ∧
    s.tick.1.tick.1.tbl.nrows = s.tick.1.tbl.nrows := by
  have hnext : s.tick.1.tbl.nextSeq = s.tbl.nextSeq := rfl
  have hcols : ∀ x : VTable, x.tick.1.tbl.cols = x.tbl.cols := fun _ => rfl
  have hnrows : ∀ x : VTable, x.tick.1.tbl.nrows = x.tbl.nrows := fun _ => rfl
  refine ⟨?_, ?_, hcols _, hnrows _⟩
  · rw [tick_count, tick_views, List.length_map]
  · rw [tick_views s.tick.1]
    have key : ∀ v ∈ s.tick.1.views, v.sync s.tick.1.tbl = v := by
      intro v hvm
      rw [tick_views] at hvm
      obtain ⟨v0, _, rfl⟩ := List.mem_map.mp hvm
      apply sync_no_pending
      · rw [hnext]
        rfl
      · intro c hc
        rw [hnext]
        exact hwf c (tick_tbl_log_subset s c hc)
    calc s.tick.1.views.map (fun v => v.sync s.tick.1.tbl)
        = s.tick.1.views.map id := List.map_congr_left key
      _ = s.tick.1.views := List.map_id _

/-- Witness for C2 at a one-view fixture with one pending Insert. -/
theorem tick_twice_no_op_witness :
    tickFixture.tick.1.tick.2 = tickFixture.views.length ∧
    tickFixture.tick.1.tick.1.views = tickFixture.tick.1.views ∧
    tickFixture.tick.1.tick.1.tbl.cols = tickFixture.tick.1.tbl.cols ∧
    tickFixture.tick.1.tick.1.tbl.nrows = tickFixture.tick.1.tbl.nrows :=
  tick_twice_no_op tickFixture (by decide) (by decide)

/-! C4: filter_expr and three-valued logic. -/

/-- C4.  filter_expr returns exactly the in-range row indices whose
top-level expression value is explicitly true; AND, OR and NOT are the
Kleene connectives, so Null propagates through them; a comparison
either of whose operands is Null yields Null (excluding the row); and
a reference to an unknown column evaluates to Null rather than
failing, so a comparison against it matches no row. -/
theorem filterExpr_three_valued (t : Table) (e : FExpr) (i : Nat)
    (c : String) (op : CmpOp) (lit : Value) :
    (i ∈ t.filterExpr e ↔ i < t.nrows ∧ evalFE t i e = .tt) ∧
    (∀ a b : FExpr,
      evalFE t i (.and a b) = TV.and (evalFE t i a) (evalFE t i b) ∧
      evalFE t i (.or a b) = TV.or (evalFE t i a) (evalFE t i b) ∧
      evalFE t i (.neg a) = TV.neg (evalFE t i a)) ∧
    (TV.and .unk .tt = .unk ∧ TV.and .tt .unk = .unk ∧ TV.and .unk .unk = .unk ∧
     TV.or .unk .ff = .unk ∧ TV.or .ff .unk = .unk ∧ TV.or .unk .unk = .unk ∧
     TV.neg .unk = .unk) ∧
    (∀ a b : Value, a.isNull = true ∨ b.isNull = true → evalCmp op a b = .unk) ∧
    (t.schema.colIdx c = none →
      t.cellVal i c = .null ∧ t.filterExpr (.cmp c op lit) = []) := by
  refine ⟨?_, fun a b => ⟨rfl, rfl, rfl⟩, by decide, ?_, ?_⟩
  · unfold Table.filterExpr
    rw [List.mem_filter, List.mem_range]
    simp
  · intro a b h
    unfold evalCmp
    rcases h with h | h <;> simp [h]
  · intro hidx
    have hcell : ∀ i0 : Nat, t.cellVal i0 c = .null := by
      intro i0
      unfold Table.cellVal Table.cell?
      rw [hidx]
      rfl
    refine ⟨hcell i, ?_⟩
    unfold Table.filterExpr
    apply List.filter_eq_nil_iff.mpr
    intro i0 _
    have : evalFE t i0 (.cmp c op lit) = evalCmp op Value.null lit := by
      show evalCmp op (t.cellVal i0 c) lit = _
      rw [hcell i0]
    rw [this]
    unfold evalCmp
    simp [Value.isNull]

/-- Witness for C4 at the scenario-S5 fixture: row 0 passes the
compound predicate, the null-aged row is excluded, and a comparison
against a nonexistent column matches no row. -/
theorem filterExpr_three_valued_witness :
    ((0 ∈ s5Table.filterExpr s5Expr ↔ 0 < s5Table.nrows ∧ evalFE s5Table 0 s5Expr = .tt) ∧
      evalFE s5Table 1 s5Expr = .unk ∧ s5Table.filterExpr s5Expr = [0]) ∧
    (∀ op : CmpOp, evalCmp op Value.null (.int 20) = .unk) ∧
    (s5Table.cellVal 0 "nonexistent" = .null ∧
      s5Table.filterExpr (.cmp "nonexistent" .eq (.int 5)) = []) := by
  refine ⟨⟨(filterExpr_three_valued s5Table s5Expr 0 "nonexistent" .eq (.int 5)).1,
    by decide, by decide⟩, ?_, ?_⟩
  · intro op
    exact (filterExpr_three_valued s5Table s5Expr 0 "nonexistent" op (.int 5)).2.2.2.1
      Value.null (.int 20) (Or.inl rfl)
  · exact (filterExpr_three_valued s5Table s5Expr 0 "nonexistent" .eq (.int 5)).2.2.2.2
      (by decide)

/-! C5: INNER hash join equals the equi-join. -/

theorem veq_symm {a b : Value} (h : Value.veq a b) : Value.veq b a := by
  obtain ⟨h1, h2, h3⟩ := h
  exact ⟨h1.symm, h2.symm, (Q.eqv_iff _ _).mpr ((Q.eqv_iff _ _).mp h3).symm⟩

theorem veq_trans {a b c : Value} (h1 : Value.veq a b) (h2 : Value.veq b c) :
    Value.veq a c := by
  obtain ⟨ha1, ha2, ha3⟩ := h1
  obtain ⟨hb1, hb2, hb3⟩ := h2
  exact ⟨ha1.trans hb1, ha2.trans hb2,
    (Q.eqv_iff _ _).mpr (((Q.eqv_iff _ _).mp ha3).trans ((Q.eqv_iff _ _).mp hb3))⟩

theorem tupEqv_symm : ∀ {a b : List Value}, tupEqv a b = true → tupEqv b a = true
  | [], [], _ => rfl
  | x :: xs, y :: ys, h => by
    simp only [tupEqv, Bool.and_eq_true, decide_eq_true_eq] at h ⊢
    exact ⟨veq_symm h.1, tupEqv_symm h.2⟩

theorem tupEqv_trans : ∀ {a b c : List Value},
    tupEqv a b = true → tupEqv b c = true → tupEqv a c = true
  | [], [], [], _, _ => rfl
  | x :: xs, y :: ys, z :: zs, h1, h2 => by
    simp only [tupEqv, Bool.and_eq_true, decide_eq_true_eq] at h1 h2 ⊢
    exact ⟨veq_trans h1.1 h2.1, tupEqv_trans h1.2 h2.2⟩

theorem bucketGet_nil (k : List Value) : bucketGet [] k = [] := rfl

theorem bucketGet_add (m : List (List Value × List Nat)) (k0 k : List Value) (j0 : Nat) :
    bucketGet (bucketAdd m k0 j0) k =
      if tupEqv k0 k then bucketGet m k ++ [j0] else bucketGet m k := by
  induction m with
  | nil =>
    by_cases h : tupEqv k0 k = true
    · simp [bucketAdd, bucketGet, List.find?, h]
    · rw [Bool.not_eq_true] at h
      simp [bucketAdd, bucketGet, List.find?, h]
  | cons e rest ih =>
    by_cases he : tupEqv e.1 k0 = true
    · by_cases hek : tupEqv e.1 k = true
      · have hk : tupEqv k0 k = true := tupEqv_trans (tupEqv_symm he) hek
        simp [bucketAdd, bucketGet, List.find?, he, hek, hk]
      · have hk : tupEqv k0 k = false := by
          cases hkk : tupEqv k0 k
          · rfl
          · exact absurd (tupEqv_trans he hkk) (by simp [hek])
        rw [Bool.not_eq_true] at hek
        simp [bucketAdd, bucketGet, List.find?, he, hek, hk]
    · rw [Bool.not_eq_true] at he
      by_cases hek : tupEqv e.1 k = true
      · have hk : tupEqv k0 k = false := by
          cases hkk : tupEqv k0 k
          · rfl
          · have : tupEqv e.1 k0 = true :=
              tupEqv_symm (tupEqv_trans hkk (tupEqv_symm hek))
            rw [this] at he
            exact Bool.noConfusion he
        simp [bucketAdd, bucketGet, List.find?, he, hek, hk]
      · rw [Bool.not_eq_true] at hek
        have := ih
        by_cases hk : tupEqv k0 k = true <;>
          simp_all [bucketAdd, bucketGet, List.find?, he, hek]

theorem count_bucketGet_foldl (r : Table) (rk : List String)
    (js : List Nat) (m : List (List Value × List Nat)) (k : List Value) (j : Nat) :
    List.count j
      (bucketGet
        (js.foldl
          (fun m0 j0 =>
            match keyOf r rk j0 with
            | none => m0
            | some kj => bucketAdd m0 kj j0) m) k) =
      List.count j (bucketGet m k) +
        List.count j (js.filter (fun j0 => keyRel r rk j0 k)) := by
  induction js generalizing m with
  | nil => simp
  | cons j1 rest ih =>
    rw [List.foldl_cons]
    cases hk1 : keyOf r rk j1 with
    | none =>
      have hrel : keyRel r rk j1 k = false := by
        unfold keyRel
        rw [hk1]
      rw [List.filter_cons, hrel]
      simpa using ih m
    | some k1 =>
      have hrel : keyRel r rk j1 k = tupEqv k1 k := by
        unfold keyRel
        rw [hk1]
      rw [List.filter_cons, hrel]
      rw [ih (bucketAdd m k1 j1), bucketGet_add]
      by_cases ht : tupEqv k1 k = true
      · rw [ht]
        simp only [if_true, List.count_append, List.count_cons, List.count_nil]
        omega
      · rw [Bool.not_eq_true] at ht
        rw [ht]
        simp

theorem count_range (j n : Nat) :
    List.count j (List.range n) = if j < n then 1 else 0 := by
  induction n with
  | zero => simp
  | succ n ih =>
    rw [List.range_succ, List.count_append, ih, List.count_cons, List.count_nil]
    by_cases h1 : j < n
    · have h2 : n ≠ j := by omega
      have h3 : j < n + 1 := by omega
      simp [h1, h2, h3]
    · by_cases h2 : n = j
      · subst h2
        simp [h1]
      · have h3 : ¬ j < n + 1 := by omega
        simp [h1, h2, h3]

theorem count_filter_range (n : Nat) (p : Nat → Bool) (j : Nat) :
    List.count j ((List.range n).filter p) = if j < n ∧ p j = true then 1 else 0 := by
  by_cases hp : p j = true
  · rw [List.count_filter hp, count_range]
    simp [hp]
  · have h0 : List.count j ((List.range n).filter p) = 0 := by
      rw [List.count_eq_zero]
      intro hmem
      exact hp (List.mem_filter.mp hmem).2
    rw [h0]
    simp [hp]

theorem count_map_pair (i j : Nat) (L : List Nat) :
    List.count (i, j) (L.map (fun j0 => (i, j0))) = List.count j L := by
  induction L with
  | nil => rfl
  | cons a L ih =>
    rw [List.map_cons, List.count_cons, List.count_cons, ih]
    by_cases h : a = j
    · subst h
      simp
    · simp [h]

theorem count_flatMap_keyed {β : Type} [BEq β] [LawfulBEq β] (L : List Nat) (hN : L.Nodup)
    (f : Nat → List (Nat × β)) (hf : ∀ i0 p, p ∈ f i0 → p.1 = i0)
    (i : Nat) (b : β) :
    List.count (i, b) (L.flatMap f) = if i ∈ L then List.count (i, b) (f i) else 0 := by
  induction L with
  | nil => simp
  | cons i0 rest ih =>
    rw [List.flatMap_cons, List.count_append]
    have hrest := ih (List.Nodup.of_cons hN)
    by_cases hii : i = i0
    · subst hii
      have hnot : i ∉ rest := by
        intro hmem
        exact (List.nodup_cons.mp hN).1 hmem
      rw [hrest, if_neg hnot, if_pos (List.mem_cons_self i rest)]
      omega
    · have hzero : List.count (i, b) (f i0) = 0 := by
        rw [List.count_eq_zero]
        intro hmem
        exact hii (hf i0 (i, b) hmem)
      rw [hzero, hrest]
      by_cases hmem : i ∈ rest
      · simp [hmem, List.mem_cons, hii]
      · simp [hmem, List.mem_cons, hii]

theorem keyOf_none_of_null (t : Table) (keys : List String) (i : Nat)
    (c : String) (hc : c ∈ keys) (hn : (t.cellVal i c).isNull = true) :
    keyOf t keys i = none := by
  unfold keyOf
  have : (keys.map (fun c0 => t.cellVal i c0)).any Value.isNull = true := by
    rw [List.any_eq_true]
    exact ⟨t.cellVal i c, List.mem_map.mpr ⟨c, hc, rfl⟩, hn⟩
  simp [this]

theorem innerJoin_probe_keyed (l r : Table) (lk rk : List String) :
    ∀ i0 p, p ∈ (match keyOf l lk i0 with
      | none => ([] : List (Nat × Nat))
      | some k => (bucketGet (buildBuckets r rk) k).map (fun j0 => (i0, j0))) → p.1 = i0 := by
  intro i0 p hp
  cases hk : keyOf l lk i0 with
  | none => rw [hk] at hp; simp at hp
  | some k =>
    rw [hk] at hp
    obtain ⟨j0, _, rfl⟩ := List.mem_map.mp hp
    rfl

theorem innerJoin_count (l r : Table) (lk rk : List String) (i j : Nat) :
    List.count (i, j) (innerJoin l r lk rk) =
      (if i < l.nrows ∧ j < r.nrows ∧ keyMatch l r lk rk i j = true then 1 else 0) := by
  unfold innerJoin
  rw [count_flatMap_keyed (List.range l.nrows) (List.nodup_range l.nrows) _
    (innerJoin_probe_keyed l r lk rk)]
  by_cases hi : i < l.nrows
  · rw [if_pos (List.mem_range.mpr hi)]
    cases hk : keyOf l lk i with
    | none =>
      have : keyMatch l r lk rk i j = false := by
        unfold keyMatch
        rw [hk]
      simp [this]
    | some k =>
        show List.count (i, j)
            ((bucketGet (buildBuckets r rk) k).map (fun j0 => (i, j0))) = _
        rw [count_map_pair]
        have hbuild : buildBuckets r rk =
            (List.range r.nrows).foldl
              (fun m0 j0 =>
                match keyOf r rk j0 with
                | none => m0
                | some kj => bucketAdd m0 kj j0) [] := rfl
        rw [hbuild, count_bucketGet_foldl, bucketGet_nil, List.count_nil,
          count_filter_range]
        cases hk2 : keyOf r rk j with
        | none =>
          have h1 : keyRel r rk j k = false := by unfold keyRel; rw [hk2]
          have h2 : keyMatch l r lk rk i j = false := by
            unfold keyMatch
            rw [hk, hk2]
          rw [h1, h2]
          simp
        | some k2 =>
          have h1 : keyRel r rk j k = tupEqv k2 k := by unfold keyRel; rw [hk2]
          have h2 : keyMatch l r lk rk i j = tupEqv k k2 := by
            unfold keyMatch
            rw [hk, hk2]
          rw [h1, h2]
          have hcomm : tupEqv k2 k = tupEqv k k2 := by
            cases ha : tupEqv k2 k
            · cases hb : tupEqv k k2
              · rfl
              · exact absurd (tupEqv_symm hb) (by simp [ha])
            · rw [tupEqv_symm ha]
          rw [hcomm]
          by_cases ht : tupEqv k k2 = true <;> simp [ht, hi]
  · rw [if_neg (by simpa using hi)]
    simp [hi]

theorem mem_innerJoin (l r : Table) (lk rk : List String) (i j : Nat) :
    (i, j) ∈ innerJoin l r lk rk ↔
      i < l.nrows ∧ ∃ k, keyOf l lk i = some k ∧
        j ∈ bucketGet (buildBuckets r rk) k := by
  unfold innerJoin
  rw [List.mem_flatMap]
  constructor
  · rintro ⟨i1, hi1, hp⟩
    cases hk : keyOf l lk i1 with
    | none => rw [hk] at hp; simp at hp
    | some k =>
      rw [hk] at hp
      obtain ⟨j1, hj1, heq⟩ := List.mem_map.mp hp
      obtain ⟨rfl, rfl⟩ := Prod.mk.injEq .. |>.mp heq
      exact ⟨List.mem_range.mp hi1, k, hk, hj1⟩
  · rintro ⟨hi, k, hk, hj⟩
    refine ⟨i, List.mem_range.mpr hi, ?_⟩
    rw [hk]
    exact List.mem_map.mpr ⟨j, hj, rfl⟩

/-- C5.  For every INNER hash join, each (left i, right j) pair occurs
in the output exactly once when both rows are in range and their key
tuples are non-null and componentwise equal, and never otherwise — so
m matching left rows and n matching right rows contribute m*n output
rows; moreover a null in any key component excludes the row from the
probe side and from the build side. -/
theorem innerJoin_equijoin (l r : Table) (lk rk : List String) (i j : Nat) :
    List.count (i, j) (innerJoin l r lk rk) =
      (if i < l.nrows ∧ j < r.nrows ∧ keyMatch l r lk rk i j = true then 1 else 0) ∧
    ((∃ c ∈ lk, (l.cellVal i c).isNull = true) →
      ∀ j0, (i, j0) ∉ innerJoin l r lk rk) ∧
    ((∃ c ∈ rk, (r.cellVal j c).isNull = true) →
      ∀ i0, (i0, j) ∉ innerJoin l r lk rk) := by
  refine ⟨innerJoin_count l r lk rk i j, ?_, ?_⟩
  · rintro ⟨c, hc, hnull⟩ j0 hmem
    unfold innerJoin at hmem
    obtain ⟨i1, _, hp⟩ := List.mem_flatMap.mp hmem
    cases hk : keyOf l lk i1 with
    | none => rw [hk] at hp; simp at hp
    | some k =>
      rw [hk] at hp
      obtain ⟨j1, _, heq⟩ := List.mem_map.mp hp
      obtain ⟨rfl, rfl⟩ := Prod.mk.injEq .. |>.mp heq
      rw [keyOf_none_of_null l lk i1 c hc hnull] at hk
      cases hk
  · rintro ⟨c, hc, hnull⟩ i0 hmem
    unfold innerJoin at hmem
    obtain ⟨i1, _, hp⟩ := List.mem_flatMap.mp hmem
    cases hk : keyOf l lk i1 with
    | none => rw [hk] at hp; simp at hp
    | some k =>
      rw [hk] at hp
      obtain ⟨j1, hj1, heq⟩ := List.mem_map.mp hp
      obtain ⟨rfl, rfl⟩ := Prod.mk.injEq .. |>.mp heq
      have hbuild : buildBuckets r rk =
          (List.range r.nrows).foldl
            (fun m0 j0 =>
              match keyOf r rk j0 with
              | none => m0
              | some kj => bucketAdd m0 kj j0) [] := rfl
      have hcnt : List.count j1 (bucketGet (buildBuckets r rk) k) =
          if j1 < r.nrows ∧ keyRel r rk j1 k = true then 1 else 0 := by
        rw [hbuild, count_bucketGet_foldl, bucketGet_nil, List.count_nil,
          count_filter_range]
        simp
      have hrel : keyRel r rk j1 k = false := by
        unfold keyRel
        rw [keyOf_none_of_null r rk j1 c hc hnull]
      rw [hrel] at hcnt
      simp only [Bool.false_eq_true, and_false, if_false] at hcnt
      have hpos := List.count_pos_iff.mpr hj1
      omega

/-- Witness for C5 at the scenario-S4 fixtures: the two-by-two shared
key yields each of the four pairs exactly once (a 2*2 cross product),
and at the null-key fixtures the null rows join with nothing. -/
theorem innerJoin_equijoin_witness :
    List.count (0, 0) (innerJoin s4Left s4Right ["a", "b"] ["x", "y"]) = 1 ∧
    List.count (0, 1) (innerJoin s4Left s4Right ["a", "b"] ["x", "y"]) = 1 ∧
    List.count (1, 0) (innerJoin s4Left s4Right ["a", "b"] ["x", "y"]) = 1 ∧
    List.count (1, 1) (innerJoin s4Left s4Right ["a", "b"] ["x", "y"]) = 1 ∧
    (1, 0) ∉ innerJoin nullKeyLeft nullKeyRight ["a", "b"] ["x", "y"] ∧
    (0, 1) ∉ innerJoin nullKeyLeft nullKeyRight ["a", "b"] ["x", "y"] := by
  refine ⟨?_, ?_, ?_, ?_, ?_, ?_⟩
  · exact (innerJoin_equijoin s4Left s4Right ["a", "b"] ["x", "y"] 0 0).1.trans (by decide)
  · exact (innerJoin_equijoin s4Left s4Right ["a", "b"] ["x", "y"] 0 1).1.trans (by decide)
  · exact (innerJoin_equijoin s4Left s4Right ["a", "b"] ["x", "y"] 1 0).1.trans (by decide)
  · exact (innerJoin_equijoin s4Left s4Right ["a", "b"] ["x", "y"] 1 1).1.trans (by decide)
  · exact (innerJoin_equijoin nullKeyLeft nullKeyRight ["a", "b"] ["x", "y"] 1 0).2.1
      ⟨"a", by decide, by decide⟩ 0
  · exact (innerJoin_equijoin nullKeyLeft nullKeyRight ["a", "b"] ["x", "y"] 0 1).2.2
      ⟨"x", by decide, by decide⟩ 0

/-! C6: LEFT hash join semantics. -/

theorem count_map_inj {β : Type} [BEq β] [LawfulBEq β] (g : Nat → β)
    (hg : ∀ a b, g a = g b → a = b) (j : Nat) (L : List Nat) :
    List.count (g j) (L.map g) = List.count j L := by
  induction L with
  | nil => rfl
  | cons a L ih =>
    rw [List.map_cons, List.count_cons, List.count_cons, ih]
    by_cases h : a = j
    · subst h
      simp
    · have hne : g a ≠ g j := fun hc => h (hg a j hc)
      simp [h, hne]

theorem leftJoin_probe_keyed (l r : Table) (lk rk : List String) :
    ∀ i0 p, p ∈ (match keyOf l lk i0 with
      | none => [(i0, (none : Option Nat))]
      | some k =>
        match (bucketGet (buildBuckets r rk) k).map (fun j0 => (i0, some j0)) with
        | [] => [(i0, none)]
        | ps => ps) → p.1 = i0 := by
  intro i0 p hp
  cases hk : keyOf l lk i0 with
  | none =>
    rw [hk] at hp
    simp only [List.mem_singleton] at hp
    rw [hp]
  | some k =>
    rw [hk] at hp
    replace hp : p ∈ (match (bucketGet (buildBuckets r rk) k).map
        (fun j0 => (i0, some j0)) with
      | [] => [(i0, (none : Option Nat))]
      | ps => ps) := hp
    cases hb : bucketGet (buildBuckets r rk) k with
    | nil =>
      rw [hb] at hp
      simp only [List.map_nil, List.mem_singleton] at hp
      rw [hp]
    | cons j1 js =>
      rw [hb] at hp
      simp only [List.map_cons] at hp
      rcases List.mem_cons.mp hp with rfl | hp2
      · rfl
      · obtain ⟨j0, _, rfl⟩ := List.mem_map.mp hp2
        rfl

theorem leftJoin_matched_count (l r : Table) (lk rk : List String) (i j : Nat) :
    List.count (i, some j) (leftJoin l r lk rk) =
      List.count (i, j) (innerJoin l r lk rk) := by
  rw [show leftJoin l r lk rk = ((List.range l.nrows).flatMap fun i0 =>
      match keyOf l lk i0 with
      | none => [(i0, (none : Option Nat))]
      | some k =>
        match (bucketGet (buildBuckets r rk) k).map (fun j0 => (i0, some j0)) with
        | [] => [(i0, none)]
        | ps => ps) from rfl]
  rw [count_flatMap_keyed (List.range l.nrows) (List.nodup_range l.nrows) _
    (leftJoin_probe_keyed l r lk rk), innerJoin_count]
  by_cases hi : i < l.nrows
  · rw [if_pos (List.mem_range.mpr hi)]
    cases hk : keyOf l lk i with
    | none =>
      have hkm : keyMatch l r lk rk i j = false := by
        unfold keyMatch
        rw [hk]
      show List.count (i, some j) [(i, (none : Option Nat))] = _
      rw [List.count_eq_zero.mpr (by simp)]
      simp [hkm]
    | some k =>
      show List.count (i, some j)
          (match (bucketGet (buildBuckets r rk) k).map (fun j0 => (i, some j0)) with
            | [] => [(i, (none : Option Nat))]
            | ps => ps) = _
      have hcnt : List.count j (bucketGet (buildBuckets r rk) k) =
          if j < r.nrows ∧ keyRel r rk j k = true then 1 else 0 := by
        rw [show buildBuckets r rk =
            (List.range r.nrows).foldl
              (fun m0 j0 =>
                match keyOf r rk j0 with
                | none => m0
                | some kj => bucketAdd m0 kj j0) [] from rfl,
          count_bucketGet_foldl, bucketGet_nil, List.count_nil, count_filter_range]
        simp
      have hrhs : (if i < l.nrows ∧ j < r.nrows ∧ keyMatch l r lk rk i j = true
          then 1 else 0) = if j < r.nrows ∧ keyRel r rk j k = true then 1 else 0 := by
        cases hk2 : keyOf r rk j with
        | none =>
          have hkm : keyMatch l r lk rk i j = false := by
            unfold keyMatch
            rw [hk, hk2]
          have hrel : keyRel r rk j k = false := by unfold keyRel; rw [hk2]
          simp [hkm, hrel]
        | some k2 =>
          have hkm : keyMatch l r lk rk i j = tupEqv k k2 := by
            unfold keyMatch
            rw [hk, hk2]
          have hrel : keyRel r rk j k = tupEqv k2 k := by unfold keyRel; rw [hk2]
          have hcomm : tupEqv k2 k = tupEqv k k2 := by
            cases ha : tupEqv k2 k
            · cases hb : tupEqv k k2
              · rfl
              · exact absurd (tupEqv_symm hb) (by simp [ha])
            · rw [tupEqv_symm ha]
          rw [hkm, hrel, hcomm]
          by_cases ht : tupEqv k k2 = true <;> simp [ht, hi]
      rw [hrhs, ← hcnt]
      cases hb : bucketGet (buildBuckets r rk) k with
      | nil =>
        show List.count (i, some j) [(i, (none : Option Nat))] = List.count j []
        rw [List.count_eq_zero.mpr (by simp)]
        rfl
      | cons j1 js =>
        show List.count (i, some j) ((j1 :: js).map (fun j0 => (i, some j0))) =
          List.count j (j1 :: js)
        simpa using count_map_inj (fun j0 => (i, some j0))
          (fun a b hc => by simpa using hc) j (j1 :: js)
  · rw [if_neg (by simpa using hi)]
    simp [hi]

theorem leftJoin_fallback_count (l r : Table) (lk rk : List String) (i : Nat) :
    List.count ((i, none) : Nat × Option Nat) (leftJoin l r lk rk) =
      if i < l.nrows ∧ hasMatch l r lk rk i = false then 1 else 0 := by
  rw [show leftJoin l r lk rk = ((List.range l.nrows).flatMap fun i0 =>
      match keyOf l lk i0 with
      | none => [(i0, (none : Option Nat))]
      | some k =>
        match (bucketGet (buildBuckets r rk) k).map (fun j0 => (i0, some j0)) with
        | [] => [(i0, none)]
        | ps => ps) from rfl]
  rw [count_flatMap_keyed (List.range l.nrows) (List.nodup_range l.nrows) _
    (leftJoin_probe_keyed l r lk rk)]
  by_cases hi : i < l.nrows
  · rw [if_pos (List.mem_range.mpr hi)]
    cases hk : keyOf l lk i with
    | none =>
      have hm : hasMatch l r lk rk i = false := by
        unfold hasMatch
        rw [hk]
      show List.count ((i, none) : Nat × Option Nat) [(i, none)] = _
      simp [hm, hi]
    | some k =>
      show List.count ((i, none) : Nat × Option Nat)
          (match (bucketGet (buildBuckets r rk) k).map (fun j0 => (i, some j0)) with
            | [] => [(i, (none : Option Nat))]
            | ps => ps) = _
      cases hb : bucketGet (buildBuckets r rk) k with
      | nil =>
        have hm : hasMatch l r lk rk i = false := by
          unfold hasMatch
          rw [hk]
          show decide (bucketGet (buildBuckets r rk) k ≠ []) = false
          rw [hb]
          simp
        show List.count ((i, none) : Nat × Option Nat) [(i, none)] = _
        simp [hm, hi]
      | cons j1 js =>
        have hm : hasMatch l r lk rk i = true := by
          unfold hasMatch
          rw [hk]
          show decide (bucketGet (buildBuckets r rk) k ≠ []) = true
          rw [hb]
          simp
        have hz : List.count ((i, none) : Nat × Option Nat)
            ((j1 :: js).map (fun j0 => (i, some j0))) = 0 := by
          rw [List.count_eq_zero]
          intro hmem
          obtain ⟨j0, _, heq⟩ := List.mem_map.mp hmem
          exact Option.noConfusion (Prod.mk.injEq .. |>.mp heq).2
        show List.count ((i, none) : Nat × Option Nat)
            ((j1 :: js).map (fun j0 => (i, some j0))) = _
        rw [hz]
        simp [hm]
  · rw [if_neg (by simpa using hi)]
    simp [hi]

theorem lookup_right_null (s : Schema) (c : ColSpec) (hc : c ∈ s) :
    List.lookup ("right_" ++ c.name)
      (s.map (fun c1 => ("right_" ++ c1.name, Value.null))) = some Value.null := by
  induction s with
  | nil => cases hc
  | cons c1 rest ih =>
    rw [List.map_cons]
    by_cases h : ("right_" ++ c.name) = ("right_" ++ c1.name)
    · simp [List.lookup, h]
    · have hcr : c ∈ rest := by
        rcases List.mem_cons.mp hc with rfl | hmem
        · exact absurd rfl h
        · exact hmem
      have hbe : (("right_" ++ c.name) == ("right_" ++ c1.name)) = false := by
        rw [beq_eq_false_iff_ne]
        exact h
      simp only [List.lookup, hbe]
      exact ih hcr

/-- C6.  For every LEFT hash join: each matched pair occurs exactly as
in the INNER join; each left row with no right match (in particular a
left row whose last matching right row has been deleted from the right
table) is emitted exactly once as a (left, None) fallback; the
fallback condition is precisely the absence of the row from the INNER
result; and in a materialized fallback row every right column (under
its fixed right_ prefix, assumed not to collide with a left column
name) is null. -/
theorem leftJoin_semantics (l r : Table) (lk rk : List String) (i j : Nat) :
    (List.count (i, some j) (leftJoin l r lk rk) =
      List.count (i, j) (innerJoin l r lk rk)) ∧
    (List.count ((i, none) : Nat × Option Nat) (leftJoin l r lk rk) =
      if i < l.nrows ∧ hasMatch l r lk rk i = false then 1 else 0) ∧
    (i < l.nrows →
      (hasMatch l r lk rk i = false ↔ ∀ j0, (i, j0) ∉ innerJoin l r lk rk)) ∧
    (∀ p ∈ leftJoin l r lk rk, p.2 = none →
      ∀ c ∈ r.schema,
        (∀ c0 ∈ l.schema, c0.name ≠ "right_" ++ c.name) →
        (joinRow l r p).lookup ("right_" ++ c.name) = some Value.null) := by
  refine ⟨leftJoin_matched_count l r lk rk i j,
    leftJoin_fallback_count l r lk rk i, ?_, ?_⟩
  · intro hi
    constructor
    · intro hfalse j0 hmem
      rw [mem_innerJoin] at hmem
      obtain ⟨_, k, hk, hjb⟩ := hmem
      unfold hasMatch at hfalse
      rw [hk] at hfalse
      simp only [decide_eq_false_iff_not, ne_eq, not_not] at hfalse
      rw [hfalse] at hjb
      cases hjb
    · intro hnone
      unfold hasMatch
      cases hk : keyOf l lk i with
      | none => rfl
      | some k =>
        simp only [decide_eq_false_iff_not, ne_eq, not_not]
        cases hb : bucketGet (buildBuckets r rk) k with
        | nil => rfl
        | cons j1 js =>
          exfalso
          exact hnone j1 ((mem_innerJoin l r lk rk i j1).mpr
            ⟨hi, k, hk, by rw [hb]; exact List.mem_cons_self j1 js⟩)
  · intro p _ hp2 c hc hnc
    unfold joinRow
    rw [hp2]
    have hleft : ∀ (ls : List ColSpec),
        (∀ c0 ∈ ls, c0.name ≠ "right_" ++ c.name) →
        List.lookup ("right_" ++ c.name)
          ((ls.map (fun c0 => (c0.name, l.cellVal p.1 c0.name))) ++
            (r.schema.map (fun c1 => ("right_" ++ c1.name, Value.null)))) =
          some Value.null := by
      intro ls hls
      induction ls with
      | nil =>
        simpa using lookup_right_null r.schema c hc
      | cons c0 rest ih =>
        have hbe : (("right_" ++ c.name) == c0.name) = false := by
          rw [beq_eq_false_iff_ne]
          exact fun h => (hls c0 (List.mem_cons_self c0 rest)) h.symm
        rw [List.map_cons, List.cons_append]
        simp only [List.lookup, hbe]
        exact ih (fun c1 hc1 => hls c1 (List.mem_cons_of_mem c0 hc1))
    exact hleft l.schema hnc

/-- Witness for C6 at the scenario-S3 fixtures: with orders (1,10.0)
and (2,20.0), Alice's matched pair appears as in the INNER join;
deleting the order of user 1 leaves the right table s3OrdersDel, after
which Alice (left row 0) is emitted exactly once as a fallback with
right_amount null. -/
theorem leftJoin_semantics_witness :
    (List.count ((0 : Nat), some (0 : Nat)) (leftJoin s3Users s3Orders ["id"] ["user_id"]) =
      List.count ((0 : Nat), (0 : Nat)) (innerJoin s3Users s3Orders ["id"] ["user_id"])) ∧
    s3Orders.deleteRow 0 = .ok s3OrdersDel ∧
    List.count ((0, none) : Nat × Option Nat)
      (leftJoin s3Users s3OrdersDel ["id"] ["user_id"]) = 1 ∧
    ((2, none) : Nat × Option Nat) ∈ leftJoin s3Users s3Orders ["id"] ["user_id"] ∧
    (joinRow s3Users s3Orders (2, none)).lookup "right_amount" = some Value.null := by
  refine ⟨(leftJoin_semantics s3Users s3Orders ["id"] ["user_id"] 0 0).1, by decide,
    ?_, by decide, ?_⟩
  · exact ((leftJoin_semantics s3Users s3OrdersDel ["id"] ["user_id"] 0 0).2.1).trans
      (by decide)
  · exact (leftJoin_semantics s3Users s3Orders ["id"] ["user_id"] 2 0).2.2.2
      (2, none) (by decide) rfl ⟨"amount", .float, false⟩ (by decide) (by decide)

/-! C7: percentile by linear interpolation. -/

theorem Q.leTotal (a b : Q) : Q.le a b ∨ Q.le b a := by
  rw [Q.le_iff, Q.le_iff]
  exact le_total a.toRat b.toRat

theorem Q.le_transitive {a b c : Q} (h1 : Q.le a b) (h2 : Q.le b c) : Q.le a c := by
  rw [Q.le_iff] at h1 h2 ⊢
  exact h1.trans h2

theorem floor_mul_ofInt_zero (q : Q) : (Q.mul q (Q.ofInt 0)).floor = 0 := by
  show Int.fdiv (q.n * 0) ((q.d * 1 : Nat) : Int) = 0
  rw [mul_zero]
  rfl

/-- C7.  Percentile over a group's k non-null values, kept as an
ascending-sorted multiset, interpolates linearly exactly as the spec
formula states: none on an empty group, the element itself on a
singleton for any rank in [0,1]; the shorthand strings p25, p50, p75,
p90, p95, p99 and median resolve to Percentile at the corresponding
rank (median at 0.5), and percentile(q) is accepted at the boundary
exactly for q in [0,1]. -/
theorem percentile_interpolation (q : Q) (a : Q) (vals : List Q) :
    (percentileOf q [] = none) ∧
    (∀ v : List Q, v ≠ [] → percentileOf q v = some (pformula q v)) ∧
    (Q.le (Q.ofInt 0) q → Q.le q (Q.ofInt 1) →
      ∃ res, percentileOf q [a] = some res ∧ Q.eqv res a) ∧
    (percentileAgg q vals = percentileOf q (vals.insertionSort Q.le) ∧
      (vals.insertionSort Q.le).Sorted Q.le ∧
      (vals.insertionSort Q.le).Perm vals) ∧
    (parseShorthand "median" = some (AggFn.percentile ⟨1, 2, Nat.succ_pos 1⟩) ∧
     parseShorthand "p25" = some (AggFn.percentile ⟨1, 4, Nat.succ_pos 3⟩) ∧
     parseShorthand "p50" = some (AggFn.percentile ⟨1, 2, Nat.succ_pos 1⟩) ∧
     parseShorthand "p75" = some (AggFn.percentile ⟨3, 4, Nat.succ_pos 3⟩) ∧
     parseShorthand "p90" = some (AggFn.percentile ⟨9, 10, Nat.succ_pos 9⟩) ∧
     parseShorthand "p95" = some (AggFn.percentile ⟨19, 20, Nat.succ_pos 19⟩) ∧
     parseShorthand "p99" = some (AggFn.percentile ⟨99, 100, Nat.succ_pos 99⟩)) ∧
    (Q.le (Q.ofInt 0) q → Q.le q (Q.ofInt 1) →
      mkPercentile q = .ok (.percentile q)) ∧
    (¬ (Q.le (Q.ofInt 0) q ∧ Q.le q (Q.ofInt 1)) →
      mkPercentile q = .error .unknownAggregate) := by
  refine ⟨rfl, ?_, ?_, ⟨rfl, ?_, List.perm_insertionSort _ _⟩,
    ⟨rfl, rfl, rfl, rfl, rfl, rfl, rfl⟩, ?_, ?_⟩
  · intro v hv
    cases v with
    | nil => exact absurd rfl hv
    | cons x xs => rfl
  · intro _ _
    have hfl : (Q.mul q (Q.ofInt ((([a] : List Q).length : Int) - 1))).floor = 0 :=
      floor_mul_ofInt_zero q
    refine ⟨pformula q [a], ?_, ?_⟩
    · rfl
    · unfold pformula
      simp only [hfl]
      rw [Q.eqv_iff]
      have hget : ([a] : List Q).getD (Int.toNat 0) (Q.ofInt 0) = a := rfl
      simp only [hget]
      have hcond : ¬ (Int.toNat 0 + 1 ≤ ([a] : List Q).length - 1) := by simp
      rw [if_neg hcond]
      simp only [Q.toRat_add, Q.toRat_mul, Q.toRat_sub]
      ring
  · letI : IsTotal Q Q.le := ⟨Q.leTotal⟩
    letI : IsTrans Q Q.le := ⟨fun _ _ _ => Q.le_transitive⟩
    exact List.sorted_insertionSort Q.le vals
  · intro h0 h1
    unfold mkPercentile
    rw [if_pos ⟨h0, h1⟩]
  · intro h
    unfold mkPercentile
    rw [if_neg h]

/-- Witness for C7: the singleton group of test_single_row_group
yields its element at the median, p95 of the sorted five-element group
10..50 interpolates to 48, and the median of the six-element group
10..60 is 35 (scenario S2). -/
theorem percentile_interpolation_witness :
    (∃ res, percentileOf ⟨1, 2, Nat.succ_pos 1⟩ [⟨42, 1, Nat.one_pos⟩] = some res ∧
      Q.eqv res ⟨42, 1, Nat.one_pos⟩) ∧
    (∃ res, percentileOf ⟨19, 20, Nat.succ_pos 19⟩
        [⟨10, 1, Nat.one_pos⟩, ⟨20, 1, Nat.one_pos⟩, ⟨30, 1, Nat.one_pos⟩,
         ⟨40, 1, Nat.one_pos⟩, ⟨50, 1, Nat.one_pos⟩] = some res ∧
      Q.eqv res (Q.ofInt 48)) ∧
    (∃ res, percentileAgg ⟨1, 2, Nat.succ_pos 1⟩
        [⟨10, 1, Nat.one_pos⟩, ⟨20, 1, Nat.one_pos⟩, ⟨30, 1, Nat.one_pos⟩,
         ⟨40, 1, Nat.one_pos⟩, ⟨50, 1, Nat.one_pos⟩, ⟨60, 1, Nat.one_pos⟩] = some res ∧
      Q.eqv res (Q.ofInt 35)) := by
  refine ⟨?_, ?_, ?_⟩
  · exact (percentile_interpolation ⟨1, 2, Nat.succ_pos 1⟩ ⟨42, 1, Nat.one_pos⟩ []).2.2.1
      (by decide) (by decide)
  · refine ⟨pformula ⟨19, 20, Nat.succ_pos 19⟩
      [⟨10, 1, Nat.one_pos⟩, ⟨20, 1, Nat.one_pos⟩, ⟨30, 1, Nat.one_pos⟩,
       ⟨40, 1, Nat.one_pos⟩, ⟨50, 1, Nat.one_pos⟩], ?_, by decide⟩
    exact (percentile_interpolation ⟨19, 20, Nat.succ_pos 19⟩ ⟨0, 1, Nat.one_pos⟩ []).2.1
      [⟨10, 1, Nat.one_pos⟩, ⟨20, 1, Nat.one_pos⟩, ⟨30, 1, Nat.one_pos⟩,
       ⟨40, 1, Nat.one_pos⟩, ⟨50, 1, Nat.one_pos⟩] (by decide)
  · refine ⟨pformula ⟨1, 2, Nat.succ_pos 1⟩
      [⟨10, 1, Nat.one_pos⟩, ⟨20, 1, Nat.one_pos⟩, ⟨30, 1, Nat.one_pos⟩,
       ⟨40, 1, Nat.one_pos⟩, ⟨50, 1, Nat.one_pos⟩, ⟨60, 1, Nat.one_pos⟩], ?_, by decide⟩
    have h := (percentile_interpolation ⟨1, 2, Nat.succ_pos 1⟩ ⟨0, 1, Nat.one_pos⟩
      [⟨10, 1, Nat.one_pos⟩, ⟨20, 1, Nat.one_pos⟩, ⟨30, 1, Nat.one_pos⟩,
       ⟨40, 1, Nat.one_pos⟩, ⟨50, 1, Nat.one_pos⟩, ⟨60, 1, Nat.one_pos⟩]).2.1
    rw [show percentileAgg ⟨1, 2, Nat.succ_pos 1⟩
        [⟨10, 1, Nat.one_pos⟩, ⟨20, 1, Nat.one_pos⟩, ⟨30, 1, Nat.one_pos⟩,
         ⟨40, 1, Nat.one_pos⟩, ⟨50, 1, Nat.one_pos⟩, ⟨60, 1, Nat.one_pos⟩] =
        percentileOf ⟨1, 2, Nat.succ_pos 1⟩
          [⟨10, 1, Nat.one_pos⟩, ⟨20, 1, Nat.one_pos⟩, ⟨30, 1, Nat.one_pos⟩,
           ⟨40, 1, Nat.one_pos⟩, ⟨50, 1, Nat.one_pos⟩, ⟨60, 1, Nat.one_pos⟩] from by decide]
    exact h _ (by decide)

/-! C10: column aggregates on a column with no non-null values. -/

/-- C10.  Over the as_f64 numeric view of a column: when the column
has no non-null values (in particular on a zero-row table), sum is 0,
count_non_null is 0, and avg, min and max are none; moreover avg, min
and max are none exactly when the column has no non-null values. -/
theorem aggregates_empty_column (t : Table) (name : String) :
    (t.numsOf name = [] →
      t.sumCol name = Q.ofInt 0 ∧ t.countNonNull name = 0 ∧
      t.avgCol name = none ∧ t.minCol name = none ∧ t.maxCol name = none) ∧
    (t.avgCol name = none ↔ t.numsOf name = []) ∧
    (t.minCol name = none ↔ t.numsOf name = []) ∧
    (t.maxCol name = none ↔ t.numsOf name = []) := by
  refine ⟨?_, ?_, ?_, ?_⟩
  · intro h
    refine ⟨?_, ?_, ?_, ?_, ?_⟩
    · unfold Table.sumCol
      rw [h]
      rfl
    · unfold Table.countNonNull
      rw [h]
      rfl
    · unfold Table.avgCol
      rw [h]
    · unfold Table.minCol
      rw [h]
    · unfold Table.maxCol
      rw [h]
  · unfold Table.avgCol
    cases h : t.numsOf name <;> simp [h]
  · unfold Table.minCol
    cases h : t.numsOf name <;> simp [h]
  · unfold Table.maxCol
    cases h : t.numsOf name <;> simp [h]

/-- Witness for C10 at the zero-row fixture table: all five aggregate
behaviors on the empty score column. -/
theorem aggregates_empty_column_witness :
    (emptyT.sumCol "score" = Q.ofInt 0 ∧ emptyT.countNonNull "score" = 0 ∧
      emptyT.avgCol "score" = none ∧ emptyT.minCol "score" = none ∧
      emptyT.maxCol "score" = none) ∧
    (emptyT.avgCol "score" = none ↔ emptyT.numsOf "score" = []) :=
  ⟨(aggregates_empty_column emptyT "score").1 (by decide),
   (aggregates_empty_column emptyT "score").2.1⟩

/-! C9: sorted views. -/

theorem charEq_of_toNat {a b : Char} (h : a.toNat = b.toNat) : a = b := by
  apply Char.ext
  apply UInt32.ext
  exact h

theorem strEq_of_data {s t : String} (h : s.data = t.data) : s = t := by
  cases s
  cases t
  exact congrArg String.mk h

theorem strLtB_trans : ∀ (a b c : List Char),
    strLtB a b = true → strLtB b c = true → strLtB a c = true
  | [], [], _, h1, _ => by simp [strLtB] at h1
  | [], _ :: _, [], _, h2 => by simp [strLtB] at h2
  | [], _ :: _, _ :: _, _, _ => rfl
  | _ :: _, [], _, h1, _ => by simp [strLtB] at h1
  | _ :: _, _ :: _, [], _, h2 => by simp [strLtB] at h2
  | a :: as, b :: bs, c :: cs, h1, h2 => by
    simp only [strLtB] at h1 h2 ⊢
    by_cases hab : a.toNat < b.toNat
    · by_cases hbc : b.toNat < c.toNat
      · have h3 : a.toNat < c.toNat := lt_trans hab hbc
        simp [h3]
      · by_cases ebc : b.toNat = c.toNat
        · have h3 : a.toNat < c.toNat := ebc ▸ hab
          simp [h3]
        · simp [hbc, ebc] at h2
    · by_cases eab : a.toNat = b.toNat
      · rw [if_neg hab, if_pos eab] at h1
        by_cases hbc : b.toNat < c.toNat
        · have h3 : a.toNat < c.toNat := eab ▸ hbc
          simp [h3]
        · by_cases ebc : b.toNat = c.toNat
          · rw [if_neg hbc, if_pos ebc] at h2
            have hac : a.toNat = c.toNat := eab.trans ebc
            have h4 : ¬ a.toNat < c.toNat := by omega
            rw [if_neg h4, if_pos hac]
            exact strLtB_trans as bs cs h1 h2
          · simp [hbc, ebc] at h2
      · simp [hab, eab] at h1

theorem strLtB_trichotomy : ∀ (a b : List Char),
    strLtB a b = true ∨ a = b ∨ strLtB b a = true
  | [], [] => Or.inr (Or.inl rfl)
  | [], _ :: _ => Or.inl rfl
  | _ :: _, [] => Or.inr (Or.inr rfl)
  | a :: as, b :: bs => by
    rcases Nat.lt_trichotomy a.toNat b.toNat with h | h | h
    · left
      simp [strLtB, h]
    · have hab : a = b := charEq_of_toNat h
      subst hab
      rcases strLtB_trichotomy as bs with h2 | h2 | h2
      · left
        simp [strLtB, h2]
      · right
        left
        rw [h2]
      · right
        right
        simp [strLtB, h2]
    · right
      right
      simp [strLtB, h]

theorem strLt_trans {a b c : String} (h1 : strLt a b) (h2 : strLt b c) : strLt a c :=
  strLtB_trans a.data b.data c.data h1 h2

theorem strLt_trichotomy (a b : String) : strLt a b ∨ a = b ∨ strLt b a := by
  rcases strLtB_trichotomy a.data b.data with h | h | h
  · exact Or.inl h
  · exact Or.inr (Or.inl (strEq_of_data h))
  · exact Or.inr (Or.inr h)

theorem Q.lt_transitive {a b c : Q} (h1 : Q.lt a b) (h2 : Q.lt b c) : Q.lt a c := by
  rw [Q.lt_iff] at h1 h2 ⊢
  exact h1.trans h2

theorem Q.lt_of_lt_of_eqv {a b c : Q} (h1 : Q.lt a b) (h2 : Q.eqv b c) : Q.lt a c := by
  rw [Q.lt_iff] at h1 ⊢
  rw [Q.eqv_iff] at h2
  exact h2 ▸ h1

theorem Q.lt_of_eqv_of_lt {a b c : Q} (h1 : Q.eqv a b) (h2 : Q.lt b c) : Q.lt a c := by
  rw [Q.lt_iff] at h2 ⊢
  rw [Q.eqv_iff] at h1
  exact h1 ▸ h2

theorem Q.lt_trichotomyQ (a b : Q) : Q.lt a b ∨ Q.eqv a b ∨ Q.lt b a := by
  rw [Q.lt_iff, Q.eqv_iff, Q.lt_iff]
  exact lt_trichotomy a.toRat b.toRat

theorem vlt_trans {a b c : Value} (h1 : Value.vlt a b) (h2 : Value.vlt b c) :
    Value.vlt a c := by
  unfold Value.vlt at h1 h2 ⊢
  rcases h1 with h1 | ⟨hr1, h1⟩
  · rcases h2 with h2 | ⟨hr2, _⟩
    · exact Or.inl (lt_trans h1 h2)
    · exact Or.inl (hr2 ▸ h1)
  · rcases h2 with h2 | ⟨hr2, h2⟩
    · exact Or.inl (hr1 ▸ h2)
    · refine Or.inr ⟨hr1.trans hr2, ?_⟩
      rcases h1 with h1 | ⟨hs1, h1⟩
      · rcases h2 with h2 | ⟨hs2, _⟩
        · exact Or.inl (strLt_trans h1 h2)
        · exact Or.inl (hs2 ▸ h1)
      · rcases h2 with h2 | ⟨hs2, h2⟩
        · exact Or.inl (hs1 ▸ h2)
        · exact Or.inr ⟨hs1.trans hs2, Q.lt_transitive h1 h2⟩

theorem vlt_of_vlt_of_veq {a b c : Value} (h1 : Value.vlt a b) (h2 : Value.veq b c) :
    Value.vlt a c := by
  obtain ⟨hr, hs, hq⟩ := h2
  unfold Value.vlt at h1 ⊢
  rcases h1 with h1 | ⟨hr1, h1⟩
  · exact Or.inl (hr ▸ h1)
  · refine Or.inr ⟨hr1.trans hr, ?_⟩
    rcases h1 with h1 | ⟨hs1, h1⟩
    · exact Or.inl (hs ▸ h1)
    · exact Or.inr ⟨hs1.trans hs, Q.lt_of_lt_of_eqv h1 hq⟩

theorem vlt_of_veq_of_vlt {a b c : Value} (h1 : Value.veq a b) (h2 : Value.vlt b c) :
    Value.vlt a c := by
  obtain ⟨hr, hs, hq⟩ := h1
  unfold Value.vlt at h2 ⊢
  rcases h2 with h2 | ⟨hr2, h2⟩
  · exact Or.inl (hr ▸ h2)
  · refine Or.inr ⟨hr.trans hr2, ?_⟩
    rcases h2 with h2 | ⟨hs2, h2⟩
    · exact Or.inl (hs ▸ h2)
    · exact Or.inr ⟨hs.trans hs2, Q.lt_of_eqv_of_lt hq h2⟩

theorem vlt_trichotomy (a b : Value) :
    Value.vlt a b ∨ Value.veq a b ∨ Value.vlt b a := by
  unfold Value.vlt Value.veq
  rcases Nat.lt_trichotomy a.rank b.rank with h | h | h
  · exact Or.inl (Or.inl h)
  · rcases strLt_trichotomy a.strOf b.strOf with h2 | h2 | h2
    · exact Or.inl (Or.inr ⟨h, Or.inl h2⟩)
    · rcases Q.lt_trichotomyQ a.qval b.qval with h3 | h3 | h3
      · exact Or.inl (Or.inr ⟨h, Or.inr ⟨h2, h3⟩⟩)
      · exact Or.inr (Or.inl ⟨h, h2, h3⟩)
      · exact Or.inr (Or.inr (Or.inr ⟨h.symm, Or.inr ⟨h2.symm, h3⟩⟩))
    · exact Or.inr (Or.inr (Or.inr ⟨h.symm, Or.inl h2⟩))
  · exact Or.inr (Or.inr (Or.inl h))

theorem cellLT_iff_asc (k : SortKey) (hd : k.desc = false) (a b : Value) :
    cellLT k a b = true ↔
      (nullPlace k.nf a < nullPlace k.nf b ∨
        (nullPlace k.nf a = nullPlace k.nf b ∧ a.isNull = false ∧ b.isNull = false ∧
          Value.vlt a b)) := by
  simp [cellLT, hd, Bool.not_eq_true', and_assoc]

theorem cellLT_iff_desc (k : SortKey) (hd : k.desc = true) (a b : Value) :
    cellLT k a b = true ↔
      (nullPlace k.nf a < nullPlace k.nf b ∨
        (nullPlace k.nf a = nullPlace k.nf b ∧ a.isNull = false ∧ b.isNull = false ∧
          Value.vlt b a)) := by
  simp [cellLT, hd, Bool.not_eq_true', and_assoc]

theorem cellEQ_iff (a b : Value) :
    cellEQ a b = true ↔
      ((a.isNull = true ∧ b.isNull = true) ∨
        (a.isNull = false ∧ b.isNull = false ∧ Value.veq a b)) := by
  simp [cellEQ, Bool.not_eq_true', and_assoc]

theorem cellEQ_symm {a b : Value} (h : cellEQ a b = true) : cellEQ b a = true := by
  rw [cellEQ_iff] at h ⊢
  rcases h with ⟨h1, h2⟩ | ⟨h1, h2, h3⟩
  · exact Or.inl ⟨h2, h1⟩
  · exact Or.inr ⟨h2, h1, veq_symm h3⟩

theorem cellEQ_transitive {a b c : Value} (h1 : cellEQ a b = true)
    (h2 : cellEQ b c = true) : cellEQ a c = true := by
  rw [cellEQ_iff] at h1 h2 ⊢
  rcases h1 with ⟨x1, x2⟩ | ⟨x1, x2, x3⟩ <;> rcases h2 with ⟨y1, y2⟩ | ⟨y1, y2, y3⟩
  · exact Or.inl ⟨x1, y2⟩
  · rw [x2] at y1
    cases y1
  · rw [y1] at x2
    cases x2
  · exact Or.inr ⟨x1, y2, veq_trans x3 y3⟩

theorem nullPlace_congr {nf : Bool} {b c : Value} (h : b.isNull = c.isNull) :
    nullPlace nf b = nullPlace nf c := by
  unfold nullPlace
  rw [h]

theorem cellLT_transitive (k : SortKey) {a b c : Value}
    (h1 : cellLT k a b = true) (h2 : cellLT k b c = true) : cellLT k a c = true := by
  cases hd : k.desc
  · rw [cellLT_iff_asc k hd] at h1 h2 ⊢
    rcases h1 with h1 | ⟨e1, na, nb, v1⟩ <;> rcases h2 with h2 | ⟨e2, nb2, nc, v2⟩
    · exact Or.inl (lt_trans h1 h2)
    · exact Or.inl (e2 ▸ h1)
    · exact Or.inl (e1 ▸ h2)
    · exact Or.inr ⟨e1.trans e2, na, nc, vlt_trans v1 v2⟩
  · rw [cellLT_iff_desc k hd] at h1 h2 ⊢
    rcases h1 with h1 | ⟨e1, na, nb, v1⟩ <;> rcases h2 with h2 | ⟨e2, nb2, nc, v2⟩
    · exact Or.inl (lt_trans h1 h2)
    · exact Or.inl (e2 ▸ h1)
    · exact Or.inl (e1 ▸ h2)
    · exact Or.inr ⟨e1.trans e2, na, nc, vlt_trans v2 v1⟩

theorem cellLT_of_lt_of_eq (k : SortKey) {a b c : Value}
    (h1 : cellLT k a b = true) (h2 : cellEQ b c = true) : cellLT k a c = true := by
  rw [cellEQ_iff] at h2
  have hp : nullPlace k.nf b = nullPlace k.nf c := by
    rcases h2 with ⟨x1, x2⟩ | ⟨x1, x2, _⟩ <;> exact nullPlace_congr (x1.trans x2.symm)
  cases hd : k.desc
  · rw [cellLT_iff_asc k hd] at h1 ⊢
    rcases h1 with h1 | ⟨e1, na, nb, v1⟩
    · exact Or.inl (hp ▸ h1)
    · rcases h2 with ⟨x1, _⟩ | ⟨_, x2, x3⟩
      · rw [nb] at x1
        cases x1
      · exact Or.inr ⟨e1.trans hp, na, x2, vlt_of_vlt_of_veq v1 x3⟩
  · rw [cellLT_iff_desc k hd] at h1 ⊢
    rcases h1 with h1 | ⟨e1, na, nb, v1⟩
    · exact Or.inl (hp ▸ h1)
    · rcases h2 with ⟨x1, _⟩ | ⟨_, x2, x3⟩
      · rw [nb] at x1
        cases x1
      · exact Or.inr ⟨e1.trans hp, na, x2, vlt_of_veq_of_vlt (veq_symm x3) v1⟩

theorem cellLT_of_eq_of_lt (k : SortKey) {a b c : Value}
    (h1 : cellEQ a b = true) (h2 : cellLT k b c = true) : cellLT k a c = true := by
  rw [cellEQ_iff] at h1
  have hp : nullPlace k.nf a = nullPlace k.nf b := by
    rcases h1 with ⟨x1, x2⟩ | ⟨x1, x2, _⟩ <;> exact nullPlace_congr (x1.trans x2.symm)
  cases hd : k.desc
  · rw [cellLT_iff_asc k hd] at h2 ⊢
    rcases h2 with h2 | ⟨e2, nb, nc, v2⟩
    · exact Or.inl (hp ▸ h2)
    · rcases h1 with ⟨_, x2⟩ | ⟨x1, _, x3⟩
      · rw [nb] at x2
        cases x2
      · exact Or.inr ⟨hp.trans e2, x1, nc, vlt_of_veq_of_vlt x3 v2⟩
  · rw [cellLT_iff_desc k hd] at h2 ⊢
    rcases h2 with h2 | ⟨e2, nb, nc, v2⟩
    · exact Or.inl (hp ▸ h2)
    · rcases h1 with ⟨_, x2⟩ | ⟨x1, _, x3⟩
      · rw [nb] at x2
        cases x2
      · exact Or.inr ⟨hp.trans e2, x1, nc, vlt_of_vlt_of_veq v2 (veq_symm x3)⟩

theorem cellLT_trichotomy (k : SortKey) (a b : Value) :
    cellLT k a b = true ∨ cellEQ a b = true ∨ cellLT k b a = true := by
  cases hna : a.isNull <;> cases hnb : b.isNull
  · have hp : nullPlace k.nf a = nullPlace k.nf b := nullPlace_congr (hna.trans hnb.symm)
    cases hd : k.desc
    · rw [cellLT_iff_asc k hd, cellEQ_iff, cellLT_iff_asc k hd]
      rcases vlt_trichotomy a b with h | h | h
      · exact Or.inl (Or.inr ⟨hp, hna, hnb, h⟩)
      · exact Or.inr (Or.inl (Or.inr ⟨hna, hnb, h⟩))
      · exact Or.inr (Or.inr (Or.inr ⟨hp.symm, hnb, hna, h⟩))
    · rw [cellLT_iff_desc k hd, cellEQ_iff, cellLT_iff_desc k hd]
      rcases vlt_trichotomy a b with h | h | h
      · exact Or.inr (Or.inr (Or.inr ⟨hp.symm, hnb, hna, h⟩))
      · exact Or.inr (Or.inl (Or.inr ⟨hna, hnb, h⟩))
      · exact Or.inl (Or.inr ⟨hp, hna, hnb, h⟩)
  · cases hnf : k.nf
    · refine Or.inl ?_
      simp [cellLT, nullPlace, hna, hnb, hnf]
    · refine Or.inr (Or.inr ?_)
      simp [cellLT, nullPlace, hna, hnb, hnf]
  · cases hnf : k.nf
    · refine Or.inr (Or.inr ?_)
      simp [cellLT, nullPlace, hna, hnb, hnf]
    · refine Or.inl ?_
      simp [cellLT, nullPlace, hna, hnb, hnf]
  · refine Or.inr (Or.inl ?_)
    rw [cellEQ_iff]
    exact Or.inl ⟨hna, hnb⟩

theorem rowLE_total (t : Table) (ks : List SortKey) (i j : Nat) :
    rowLE t ks i j = true ∨ rowLE t ks j i = true := by
  induction ks with
  | nil => exact Or.inl rfl
  | cons k rest ih =>
    simp only [rowLE, Bool.or_eq_true, Bool.and_eq_true]
    rcases cellLT_trichotomy k (t.cellVal i k.col) (t.cellVal j k.col) with h | h | h
    · exact Or.inl (Or.inl h)
    · rcases ih with h2 | h2
      · exact Or.inl (Or.inr ⟨h, h2⟩)
      · exact Or.inr (Or.inr ⟨cellEQ_symm h, h2⟩)
    · exact Or.inr (Or.inl h)

theorem rowLE_transitive (t : Table) (ks : List SortKey) {i j l : Nat}
    (h1 : rowLE t ks i j = true) (h2 : rowLE t ks j l = true) :
    rowLE t ks i l = true := by
  induction ks with
  | nil => rfl
  | cons k rest ih =>
    simp only [rowLE, Bool.or_eq_true, Bool.and_eq_true] at h1 h2 ⊢
    rcases h1 with h1 | ⟨e1, r1⟩ <;> rcases h2 with h2 | ⟨e2, r2⟩
    · exact Or.inl (cellLT_transitive k h1 h2)
    · exact Or.inl (cellLT_of_lt_of_eq k h1 e2)
    · exact Or.inl (cellLT_of_eq_of_lt k e1 h2)
    · exact Or.inr ⟨cellEQ_transitive e1 e2, ih r1 r2⟩

theorem sortedView_sorted (t : Table) (ks : List SortKey) :
    (sortedView t ks).Sorted (fun i j => rowLE t ks i j = true) := by
  letI : IsTotal Nat (fun i j => rowLE t ks i j = true) := ⟨rowLE_total t ks⟩
  letI : IsTrans Nat (fun i j => rowLE t ks i j = true) :=
    ⟨fun _ _ _ => rowLE_transitive t ks⟩
  exact List.sorted_insertionSort _ _

theorem cellLT_null_left_asc {c : String} {b : Value}
    (h : cellLT ⟨c, false, none⟩ Value.null b = true) : b.isNull = true := by
  rw [cellLT_iff_asc ⟨c, false, none⟩ rfl] at h
  rcases h with h | ⟨_, hn, _⟩
  · have hpa : nullPlace (SortKey.nf ⟨c, false, none⟩) Value.null = 2 := rfl
    rw [hpa] at h
    cases hb : b.isNull
    · simp [nullPlace, hb, SortKey.nf] at h
    · rfl
  · cases hn

/-- C9.  A SortedView holds a permutation of the parent row indices,
sorted under the key-spec comparator; for each key the comparator
places nulls last on an ascending key and first on a descending key by
default, and an explicit nulls_first override reverses that placement;
consequently, for a single default-ascending key, every row at or
after the first null-keyed row in the view is null-keyed. -/
theorem sortedView_ordered (t : Table) (ks : List SortKey) (k : SortKey) (a : Value) :
    (sortedView t ks).Perm (List.range t.nrows) ∧
    (sortedView t ks).Sorted (fun i j => rowLE t ks i j = true) ∧
    (a.isNull = false → k.nullsFirst = none →
      (k.desc = false → cellLT k a .null = true ∧ cellLT k .null a = false) ∧
      (k.desc = true → cellLT k .null a = true ∧ cellLT k a .null = false)) ∧
    (a.isNull = false →
      (k.nullsFirst = some true → cellLT k .null a = true ∧ cellLT k a .null = false) ∧
      (k.nullsFirst = some false → cellLT k a .null = true ∧ cellLT k .null a = false)) ∧
    (∀ (c : String) (p1 p2 : Nat) ( _h2 : p2 < (sortedView t [⟨c, false, none⟩]).length),
      p1 < p2 →
      (t.cellVal ((sortedView t [⟨c, false, none⟩]).getD p1 0) c).isNull = true →
      (t.cellVal ((sortedView t [⟨c, false, none⟩]).getD p2 0) c).isNull = true) := by
  refine ⟨List.perm_insertionSort _ _, sortedView_sorted t ks, ?_, ?_, ?_⟩
  · intro ha hnone
    constructor
    · intro hd
      constructor <;>
        simp [cellLT, nullPlace, SortKey.nf, hnone, hd, ha,
          show Value.isNull .null = true from rfl]
    · intro hd
      constructor <;>
        simp [cellLT, nullPlace, SortKey.nf, hnone, hd, ha,
          show Value.isNull .null = true from rfl]
  · intro ha
    constructor
    · intro hnf
      constructor <;>
        simp [cellLT, nullPlace, SortKey.nf, hnf, ha,
          show Value.isNull .null = true from rfl]
    · intro hnf
      constructor <;>
        simp [cellLT, nullPlace, SortKey.nf, hnf, ha,
          show Value.isNull .null = true from rfl]
  · intro c p1 p2 h2 h12 hnull
    have h1 : p1 < (sortedView t [⟨c, false, none⟩]).length := lt_trans h12 h2
    have hrel := List.Sorted.rel_get_of_lt (sortedView_sorted t [⟨c, false, none⟩])
      (show (⟨p1, h1⟩ : Fin _) < ⟨p2, h2⟩ from h12)
    rw [List.getD_eq_getElem _ 0 h1] at hnull
    rw [List.getD_eq_getElem _ 0 h2]
    have hg1 : (sortedView t [⟨c, false, none⟩]).get ⟨p1, h1⟩ =
        (sortedView t [⟨c, false, none⟩])[p1] := rfl
    have hg2 : (sortedView t [⟨c, false, none⟩]).get ⟨p2, h2⟩ =
        (sortedView t [⟨c, false, none⟩])[p2] := rfl
    rw [hg1, hg2] at hrel
    simp only [rowLE, Bool.or_eq_true, Bool.and_eq_true] at hrel
    rcases hrel with hrel | ⟨hrel, _⟩
    · rw [show t.cellVal (sortedView t [⟨c, false, none⟩])[p1] c = Value.null from ?_] at hrel
      · exact cellLT_null_left_asc hrel
      · cases hv : t.cellVal (sortedView t [⟨c, false, none⟩])[p1] c <;>
          rw [hv] at hnull <;> first | rfl | cases hnull
    · rw [cellEQ_iff] at hrel
      rcases hrel with ⟨_, hb⟩ | ⟨hfalse, _⟩
      · exact hb
      · rw [hnull] at hfalse
        cases hfalse

/-- Witness for C9 at the four-row age fixture (ages 30, null, 25,
null): the sorted view is a permutation of the parent indices, sorted
under the comparator; the comparator facts at the concrete key; and
positions 2 and 3 of the default-ascending sort both hold null ages. -/
theorem sortedView_ordered_witness :
    (sortedView sortAgeT [⟨"age", false, none⟩]).Perm (List.range sortAgeT.nrows) ∧
    (cellLT ⟨"age", false, none⟩ (.int 25) .null = true ∧
      cellLT ⟨"age", false, none⟩ .null (.int 25) = false) ∧
    (cellLT ⟨"age", true, none⟩ .null (.int 25) = true ∧
      cellLT ⟨"age", true, none⟩ (.int 25) .null = false) ∧
    (cellLT ⟨"age", false, some true⟩ .null (.int 25) = true ∧
      cellLT ⟨"age", false, some true⟩ (.int 25) .null = false) ∧
    (sortAgeT.cellVal ((sortedView sortAgeT [⟨"age", false, none⟩]).getD 3 0) "age").isNull
      = true := by
  refine ⟨(sortedView_ordered sortAgeT [⟨"age", false, none⟩] ⟨"age", false, none⟩
    (.int 25)).1, ?_, ?_, ?_, ?_⟩
  · exact ((sortedView_ordered sortAgeT [] ⟨"age", false, none⟩ (.int 25)).2.2.1
      (by decide) rfl).1 rfl
  · exact ((sortedView_ordered sortAgeT [] ⟨"age", true, none⟩ (.int 25)).2.2.1
      (by decide) rfl).2 rfl
  · exact ((sortedView_ordered sortAgeT [] ⟨"age", false, some true⟩ (.int 25)).2.2.2.1
      (by decide)).1 rfl
  · exact (sortedView_ordered sortAgeT [] ⟨"age", false, none⟩ (.int 25)).2.2.2.2
      "age" 2 3 (by decide) (by decide) (by decide)

/-! C8: string interner statistics. -/

theorem modify_get (f : List (Option Nat) → List (Option Nat))
    (l : List (List (Option Nat))) :
    ∀ (n : Nat) (a : List (Option Nat)), l.get? n = some a →
      l.modify f n = l.set n (f a) := by
  induction l with
  | nil => intro n a h; cases h
  | cons x xs ih =>
    intro n a h
    cases n with
    | zero =>
      cases h
      rfl
    | succ m =>
      have := ih m a h
      show x :: List.modify f m xs = x :: xs.set m (f a)
      rw [this]

theorem coherent_congr {it : Interner} {A B : List Nat}
    (hc : ∀ x, A.count x = B.count x) (h : IntCoherent it A) : IntCoherent it B := by
  obtain ⟨h1, h2, h3, h4⟩ := h
  refine ⟨?_, h2, h3, ?_⟩
  · intro e he
    obtain ⟨p1, p2, p3⟩ := h1 e he
    exact ⟨p1, p2.trans (hc e.2.1), p3⟩
  · intro x hx
    apply h4
    rw [← List.count_pos_iff] at hx ⊢
    rw [← hc x] at hx
    exact hx

theorem entries_map_fst_of_pointwise (g : String × Nat × Nat → String × Nat × Nat)
    (hg : ∀ e, (g e).1 = e.1) (l : List (String × Nat × Nat)) :
    (l.map g).map (fun e => e.1) = l.map (fun e => e.1) := by
  rw [List.map_map]
  exact List.map_congr_left (fun e _ => hg e)

theorem entries_map_id_of_pointwise (g : String × Nat × Nat → String × Nat × Nat)
    (hg : ∀ e, (g e).2.1 = e.2.1) (l : List (String × Nat × Nat)) :
    (l.map g).map (fun e => e.2.1) = l.map (fun e => e.2.1) := by
  rw [List.map_map]
  exact List.map_congr_left (fun e _ => hg e)

theorem intern_coherent {it : Interner} {cells : List Nat} (h : IntCoherent it cells)
    (s : String) :
    IntCoherent (it.intern s).1 ((it.intern s).2 :: cells) ∧
    (∃ e ∈ (it.intern s).1.entries, e.2.1 = (it.intern s).2 ∧ e.1 = s) ∧
    it.nextId ≤ (it.intern s).1.nextId := by
  obtain ⟨h1, h2, h3, h4⟩ := h
  unfold Interner.intern
  cases hf : it.entries.find? (fun e => decide (e.1 = s)) with
  | some e0 =>
    have he0mem : e0 ∈ it.entries := List.mem_of_find?_eq_some hf
    have he0s : e0.1 = s := by
      have := List.find?_some hf
      simpa using this
    have hgfst : ∀ e : String × Nat × Nat,
        ((if e.1 = s then (e.1, e.2.1, e.2.2 + 1) else e) : String × Nat × Nat).1 = e.1 := by
      intro e
      by_cases hh : e.1 = s <;> simp [hh]
    have hgid : ∀ e : String × Nat × Nat,
        ((if e.1 = s then (e.1, e.2.1, e.2.2 + 1) else e) : String × Nat × Nat).2.1 = e.2.1 := by
      intro e
      by_cases hh : e.1 = s <;> simp [hh]
    simp only []
    refine ⟨⟨?_, ?_, ?_, ?_⟩, ?_, le_refl _⟩
    · intro e' he'
      obtain ⟨e, hemem, rfl⟩ := List.mem_map.mp he'
      obtain ⟨p1, p2, p3⟩ := h1 e hemem
      by_cases hh : e.1 = s
      · have hee0 : e = e0 := List.inj_on_of_nodup_map h2 hemem he0mem (by rw [hh, he0s])
        subst hee0
        simp only [hh, if_true]
        refine ⟨Nat.succ_pos _, ?_, p3⟩
        rw [List.count_cons_self, p2]
      · simp only [hh, if_false]
        refine ⟨p1, ?_, p3⟩
        have hne : e.2.1 ≠ e0.2.1 := by
          intro hcon
          exact hh ((List.inj_on_of_nodup_map h3 hemem he0mem hcon) ▸ he0s)
        rw [List.count_cons_of_ne hne, p2]
    · rw [entries_map_fst_of_pointwise _ hgfst]
      exact h2
    · rw [entries_map_id_of_pointwise _ hgid]
      exact h3
    · intro x hx
      rcases List.mem_cons.mp hx with rfl | hx2
      · refine ⟨(e0.1, e0.2.1, e0.2.2 + 1), ?_, rfl⟩
        apply List.mem_map.mpr
        exact ⟨e0, he0mem, by simp [he0s]⟩
      · obtain ⟨e, hemem, heid⟩ := h4 x hx2
        by_cases hh : e.1 = s
        · exact ⟨(e.1, e.2.1, e.2.2 + 1), List.mem_map.mpr ⟨e, hemem, by simp [hh]⟩, heid⟩
        · exact ⟨e, List.mem_map.mpr ⟨e, hemem, by simp [hh]⟩, heid⟩
    · refine ⟨(e0.1, e0.2.1, e0.2.2 + 1), ?_, rfl, he0s⟩
      apply List.mem_map.mpr
      exact ⟨e0, he0mem, by simp [he0s]⟩
  | none =>
    have hnew : ∀ e ∈ it.entries, e.1 ≠ s := by
      intro e he
      have := List.find?_eq_none.mp hf e he
      simpa using this
    have hfresh : it.nextId ∉ cells := by
      intro hmem
      obtain ⟨e, hemem, heid⟩ := h4 _ hmem
      exact absurd (heid ▸ (h1 e hemem).2.2) (lt_irrefl _)
    simp only []
    refine ⟨⟨?_, ?_, ?_, ?_⟩, ?_, Nat.le_succ _⟩
    · intro e he
      rcases List.mem_append.mp he with he | he
      · obtain ⟨p1, p2, p3⟩ := h1 e he
        refine ⟨p1, ?_, lt_trans p3 (Nat.lt_succ_self _)⟩
        have hne : e.2.1 ≠ it.nextId := Nat.ne_of_lt p3
        rw [List.count_cons_of_ne hne, p2]
      · rw [List.mem_singleton] at he
        subst he
        refine ⟨Nat.one_pos, ?_, Nat.lt_succ_self _⟩
        rw [List.count_cons_self]
        rw [List.count_eq_zero.mpr hfresh]
    · rw [List.map_append]
      apply List.Nodup.append h2 (by simp)
      intro x hx hy
      rw [List.mem_map] at hx
      obtain ⟨e, hemem, rfl⟩ := hx
      simp only [List.map_cons, List.map_nil, List.mem_singleton] at hy
      exact hnew e hemem hy
    · rw [List.map_append]
      apply List.Nodup.append h3 (by simp)
      intro x hx hy
      rw [List.mem_map] at hx
      obtain ⟨e, hemem, rfl⟩ := hx
      simp only [List.map_cons, List.map_nil, List.mem_singleton] at hy
      exact absurd ((h1 e hemem).2.2) (by rw [hy]; exact lt_irrefl _)
    · intro x hx
      rcases List.mem_cons.mp hx with rfl | hx2
      · exact ⟨(s, it.nextId, 1), List.mem_append.mpr (Or.inr (List.mem_singleton.mpr rfl)), rfl⟩
      · obtain ⟨e, hemem, heid⟩ := h4 x hx2
        exact ⟨e, List.mem_append.mpr (Or.inl hemem), heid⟩
    · exact ⟨(s, it.nextId, 1), List.mem_append.mpr (Or.inr (List.mem_singleton.mpr rfl)),
        rfl, rfl⟩

theorem release_coherent {it : Interner} {cells : List Nat} (h : IntCoherent it cells)
    (id : Nat) ( _hid : id ∈ cells) :
    IntCoherent (it.release id) (cells.erase id) := by
  obtain ⟨h1, h2, h3, h4⟩ := h
  have hgfst : ∀ e : String × Nat × Nat,
      ((if e.2.1 = id then (e.1, e.2.1, e.2.2 - 1) else e) : String × Nat × Nat).1 = e.1 := by
    intro e
    by_cases hh : e.2.1 = id <;> simp [hh]
  have hgid : ∀ e : String × Nat × Nat,
      ((if e.2.1 = id then (e.1, e.2.1, e.2.2 - 1) else e) : String × Nat × Nat).2.1 = e.2.1 := by
    intro e
    by_cases hh : e.2.1 = id <;> simp [hh]
  unfold Interner.release
  refine ⟨?_, ?_, ?_, ?_⟩
  · intro e' he'
    have he'2 := List.mem_of_mem_filter he'
    have hpos : 0 < e'.2.2 := by
      have := List.of_mem_filter he'
      simpa using this
    obtain ⟨e, hemem, rfl⟩ := List.mem_map.mp he'2
    obtain ⟨p1, p2, p3⟩ := h1 e hemem
    by_cases hh : e.2.1 = id
    · simp only [hh, if_true] at hpos ⊢
      refine ⟨hpos, ?_, by simpa [hh] using p3⟩
      rw [hh] at p2
      rw [List.count_erase_self, ← p2]
    · simp only [hh, if_false] at hpos ⊢
      refine ⟨hpos, ?_, p3⟩
      rw [List.count_erase_of_ne hh, p2]
  · have hsub : ((it.entries.map (fun e =>
        if e.2.1 = id then (e.1, e.2.1, e.2.2 - 1) else e)).filter
          (fun e => decide (0 < e.2.2))).map (fun e => e.1) |>.Sublist
        ((it.entries.map (fun e =>
          if e.2.1 = id then (e.1, e.2.1, e.2.2 - 1) else e)).map (fun e => e.1)) :=
      List.Sublist.map _ (List.filter_sublist _)
    apply List.Nodup.sublist hsub
    rw [entries_map_fst_of_pointwise _ hgfst]
    exact h2
  · have hsub : ((it.entries.map (fun e =>
        if e.2.1 = id then (e.1, e.2.1, e.2.2 - 1) else e)).filter
          (fun e => decide (0 < e.2.2))).map (fun e => e.2.1) |>.Sublist
        ((it.entries.map (fun e =>
          if e.2.1 = id then (e.1, e.2.1, e.2.2 - 1) else e)).map (fun e => e.2.1)) :=
      List.Sublist.map _ (List.filter_sublist _)
    apply List.Nodup.sublist hsub
    rw [entries_map_id_of_pointwise _ hgid]
    exact h3
  · intro x hx
    have hxc : x ∈ cells := (cells.erase_sublist id).mem hx
    obtain ⟨e, hemem, heid⟩ := h4 x hxc
    by_cases hh : e.2.1 = id
    · subst heid
      rw [hh] at hx ⊢
      have hcnt : 2 ≤ cells.count id := by
        have hp := (h1 e hemem).2.1
        rw [hh] at hp
        have hpos : 0 < (cells.erase id).count id := List.count_pos_iff.mpr hx
        rw [List.count_erase_self] at hpos
        omega
      refine ⟨(e.1, e.2.1, e.2.2 - 1), ?_, hh⟩
      apply List.mem_filter.mpr
      refine ⟨List.mem_map.mpr ⟨e, hemem, by simp [hh]⟩, ?_⟩
      have hp := (h1 e hemem).2.1
      rw [hh] at hp
      simp only [decide_eq_true_eq]
      omega
    · refine ⟨e, ?_, heid⟩
      apply List.mem_filter.mpr
      refine ⟨List.mem_map.mpr ⟨e, hemem, by simp [hh]⟩, ?_⟩
      have hp := (h1 e hemem).1
      simpa using hp

theorem count_cells_append (x : Nat) :
    ∀ (cols : List (List (Option Nat))) (cs : List (Option Nat)),
    cs.length = cols.length →
    (((List.zipWith (fun col c => col ++ [c]) cols cs).flatten).filterMap
        (fun c => c)).count x =
      ((cols.flatten).filterMap (fun c => c)).count x +
        (cs.filterMap (fun c => c)).count x
  | [], [], _ => rfl
  | [], _ :: _, h => by simp at h
  | _ :: _, [], h => by simp at h
  | col :: rest, c :: cs', h => by
    have ih := count_cells_append x rest cs' (by simpa using h)
    simp only [List.zipWith_cons_cons, List.flatten_cons, List.filterMap_append,
      List.count_append, List.filterMap_cons]
    cases c with
    | none => simp only [List.filterMap_nil, List.count_nil] at ih ⊢; omega
    | some b =>
      simp only [List.filterMap_nil, List.count_cons, List.count_nil] at ih ⊢
      by_cases hb : b = x <;> simp [hb] at ih ⊢ <;> omega

theorem count_fm_set (x : Nat) :
    ∀ (col : List (Option Nat)) (r : Nat) (oldC newC : Option Nat),
    col.get? r = some oldC →
    ((col.set r newC).filterMap (fun c => c)).count x + (oldC.toList.count x) =
      (col.filterMap (fun c => c)).count x + (newC.toList.count x)
  | [], r, _, _, h => by cases h
  | a :: as, 0, oldC, newC, h => by
    cases h
    cases a <;> cases newC <;>
      simp [List.filterMap_cons, List.count_cons, Option.toList] <;> omega
  | a :: as, r + 1, oldC, newC, h => by
    have ih := count_fm_set x as r oldC newC h
    show (((a :: as.set r newC) : List (Option Nat)).filterMap (fun c => c)).count x + _ = _
    cases a <;> simp only [List.filterMap_cons, List.count_cons] <;> omega

theorem count_flatten_set (x : Nat) :
    ∀ (cols : List (List (Option Nat))) (c : Nat) (col newcol : List (Option Nat)),
    cols.get? c = some col →
    (((cols.set c newcol).flatten).filterMap (fun c0 => c0)).count x +
        ((col.filterMap (fun c0 => c0)).count x) =
      ((cols.flatten).filterMap (fun c0 => c0)).count x +
        ((newcol.filterMap (fun c0 => c0)).count x)
  | [], c, _, _, h => by cases h
  | a :: rest, 0, col, newcol, h => by
    cases h
    simp only [List.set, List.flatten_cons, List.filterMap_append, List.count_append]
    omega
  | a :: rest, c + 1, col, newcol, h => by
    have ih := count_flatten_set x rest c col newcol h
    simp only [List.set, List.flatten_cons, List.filterMap_append, List.count_append]
    omega

theorem count_fm_erase (x : Nat) :
    ∀ (col : List (Option Nat)) (r : Nat),
    ((col.eraseIdx r).filterMap (fun c => c)).count x +
        (((col.get? r).bind (fun c => c)).toList.count x) =
      (col.filterMap (fun c => c)).count x
  | [], r => by simp [List.eraseIdx]
  | a :: as, 0 => by
    cases a <;> simp [List.eraseIdx, List.filterMap_cons, List.count_cons, Option.toList] <;>
      omega
  | a :: as, r + 1 => by
    have ih := count_fm_erase x as r
    show ((a :: as.eraseIdx r : List (Option Nat)).filterMap (fun c => c)).count x + _ = _
    cases a <;> simp only [List.filterMap_cons, List.count_cons, List.get?_cons_succ] <;> omega

theorem count_cells_del (x : Nat) (r : Nat) :
    ∀ (cols : List (List (Option Nat))),
    (((cols.map (fun col => col.eraseIdx r)).flatten).filterMap (fun c => c)).count x +
        ((cols.filterMap (fun col => (col.get? r).bind (fun c => c))).count x) =
      ((cols.flatten).filterMap (fun c => c)).count x
  | [] => rfl
  | col :: rest => by
    have ih := count_cells_del x r rest
    have hcol := count_fm_erase x col r
    cases hg : (col.get? r).bind (fun c => c) with
    | none =>
      rw [hg] at hcol
      simp only [Option.toList, List.count_nil] at hcol
      simp only [List.map_cons, List.flatten_cons, List.filterMap_append, List.count_append,
        List.filterMap_cons, hg]
      omega
    | some b =>
      rw [hg] at hcol
      simp only [Option.toList, List.count_cons, List.count_nil] at hcol
      simp only [List.map_cons, List.flatten_cons, List.filterMap_append, List.count_append,
        List.filterMap_cons, hg, List.count_cons]
      omega

theorem fold_release_coherent :
    ∀ (ids : List Nat) (it : Interner) (cells : List Nat),
    IntCoherent it cells → (∀ x, ids.count x ≤ cells.count x) →
    ∃ cells2, IntCoherent (ids.foldl Interner.release it) cells2 ∧
      ∀ x, cells2.count x + ids.count x = cells.count x
  | [], it, cells, h, _ => ⟨cells, h, fun x => by simp⟩
  | id :: rest, it, cells, h, hsub => by
    have hc2 := release_coherent h id (by
      have := hsub id
      rw [List.count_cons_self] at this
      exact List.count_pos_iff.mp (by omega))
    have hsub2 : ∀ x, rest.count x ≤ (cells.erase id).count x := by
      intro x
      have := hsub x
      by_cases hx : x = id
      · subst hx
        rw [List.count_cons_self] at this
        rw [List.count_erase_self]
        omega
      · rw [List.count_cons_of_ne hx] at this
        rw [List.count_erase_of_ne hx]
        exact this
    obtain ⟨cells2, hcoh, hcnt⟩ := fold_release_coherent rest _ _ hc2 hsub2
    refine ⟨cells2, hcoh, ?_⟩
    intro x
    have h1 := hcnt x
    have h2 := hsub x
    by_cases hx : x = id
    · subst hx
      rw [List.count_erase_self] at h1
      rw [List.count_cons_self] at h2 ⊢
      omega
    · rw [List.count_erase_of_ne hx] at h1
      rw [List.count_cons_of_ne hx] at h2 ⊢
      omega

theorem internMany_coherent :
    ∀ (vals : List (Option String)) (it : Interner) (cells : List Nat),
    IntCoherent it cells →
    IntCoherent (internMany it vals).1
      (((internMany it vals).2.filterMap (fun c => c)) ++ cells)
  | [], it, cells, h => by simpa [internMany] using h
  | none :: rest, it, cells, h => by
    have ih := internMany_coherent rest it cells h
    simpa [internMany] using ih
  | some s :: rest, it, cells, h => by
    have h1 := (intern_coherent h s).1
    have ih := internMany_coherent rest (it.intern s).1 ((it.intern s).2 :: cells) h1
    have hstep : internMany it (some s :: rest) =
        ((internMany (it.intern s).1 rest).1,
          some (it.intern s).2 :: (internMany (it.intern s).1 rest).2) := rfl
    rw [hstep]
    apply coherent_congr ?_ ih
    intro x
    simp only [List.filterMap_cons, List.count_append, List.count_cons]
    by_cases hx : (it.intern s).2 = x <;> simp [hx] <;> omega

theorem internMany_length :
    ∀ (vals : List (Option String)) (it : Interner),
    (internMany it vals).2.length = vals.length
  | [], _ => rfl
  | none :: rest, it => by
    have ih := internMany_length rest it
    simpa [internMany] using ih
  | some s :: rest, it => by
    have ih := internMany_length rest (it.intern s).1
    have hstep : internMany it (some s :: rest) =
        ((internMany (it.intern s).1 rest).1,
          some (it.intern s).2 :: (internMany (it.intern s).1 rest).2) := rfl
    rw [hstep]
    simpa using ih

theorem appendIRow_coherent {t : ITable} (h : IntCoherent t.intr t.cellsOf)
    (vals : List (Option String)) :
    IntCoherent (t.appendIRow vals).intr (t.appendIRow vals).cellsOf := by
  unfold ITable.appendIRow
  by_cases hl : vals.length = t.cols.length
  · rw [if_pos hl]
    have hic := internMany_coherent vals t.intr t.cellsOf h
    apply coherent_congr ?_ hic
    intro x
    have hlen : (internMany t.intr vals).2.length = t.cols.length :=
      (internMany_length vals t.intr).trans hl
    have := count_cells_append x t.cols (internMany t.intr vals).2 hlen
    show _ = List.count x (ITable.cellsOf ⟨_, _⟩)
    simp only [ITable.cellsOf] at this ⊢
    rw [List.count_append]
    omega
  · rw [if_neg hl]
    exact h

theorem cellId_extract {t : ITable} {r c : Nat} {old : Option Nat}
    (h : t.cellId r c = some old) :
    ∃ col, t.cols.get? c = some col ∧ col.get? r = some old :=
  Option.bind_eq_some.mp h

theorem cellId_mem_cells {t : ITable} {r c oldId : Nat}
    (h : t.cellId r c = some (some oldId)) : oldId ∈ t.cellsOf := by
  obtain ⟨col, hcol, hr⟩ := cellId_extract h
  have hcolmem : col ∈ t.cols := List.get?_mem hcol
  have hcellmem : some oldId ∈ col := List.get?_mem hr
  exact List.mem_filterMap.mpr
    ⟨some oldId, List.mem_flatten.mpr ⟨col, hcolmem, hcellmem⟩, rfl⟩

theorem count_cells_set (x : Nat) {cols : List (List (Option Nat))} {r c : Nat}
    {col : List (Option Nat)} {old : Option Nat} (nc : Option Nat)
    (hcol : cols.get? c = some col) (hr : col.get? r = some old) :
    (((cols.modify (fun col0 => col0.set r nc) c).flatten).filterMap
        (fun c0 => c0)).count x + old.toList.count x =
      ((cols.flatten).filterMap (fun c0 => c0)).count x + nc.toList.count x := by
  rw [modify_get (fun col0 => col0.set r nc) cols c col hcol]
  have hA := count_flatten_set x cols c col (col.set r nc) hcol
  have hB := count_fm_set x col r old nc hr
  omega

theorem count_erase_mem {a : Nat} {l : List Nat} (h : a ∈ l) (x : Nat) :
    (l.erase a).count x + ([a] : List Nat).count x = l.count x := by
  by_cases hx : x = a
  · subst hx
    rw [List.count_erase_self]
    have h1 : (([x] : List Nat)).count x = 1 := by simp
    rw [h1]
    have h2 : 1 ≤ l.count x := List.count_pos_iff.mpr h
    omega
  · rw [List.count_erase_of_ne hx]
    have h1 : (([a] : List Nat)).count x = 0 := by simp [hx]
    rw [h1]
    omega

theorem count_cons_split (a x : Nat) (l : List Nat) :
    (a :: l).count x = ([a] : List Nat).count x + l.count x := by
  rw [← List.singleton_append, List.count_append]

theorem setIValue_coherent {t : ITable} (h : IntCoherent t.intr t.cellsOf)
    (r c : Nat) (v : Option String) :
    IntCoherent (t.setIValue r c v).intr (t.setIValue r c v).cellsOf := by
  cases hcell : t.cellId r c with
  | none => simpa [ITable.setIValue, hcell] using h
  | some old =>
    obtain ⟨col, hcol, hr⟩ := cellId_extract hcell
    have hdef : t.cellsOf = (t.cols.flatten).filterMap (fun c0 => c0) := rfl
    cases old with
    | none =>
      cases v with
      | none =>
        have hset : t.setIValue r c none =
            ⟨t.intr, t.cols.modify (fun col0 => col0.set r none) c⟩ := by
          simp [ITable.setIValue, hcell]
        rw [hset]
        apply coherent_congr ?_ h
        intro x
        have hcs := count_cells_set x (none : Option Nat) hcol hr
        simp only [Option.toList, List.count_nil] at hcs
        show t.cellsOf.count x =
          (((t.cols.modify (fun col0 => col0.set r none) c).flatten).filterMap
            (fun c0 => c0)).count x
        rw [hdef]
        omega
      | some s =>
        have hset : t.setIValue r c (some s) =
            ⟨(t.intr.intern s).1,
              t.cols.modify (fun col0 => col0.set r (some (t.intr.intern s).2)) c⟩ := by
          simp [ITable.setIValue, hcell]
        rw [hset]
        have hic := (intern_coherent h s).1
        apply coherent_congr ?_ hic
        intro x
        have hcs := count_cells_set x (some (t.intr.intern s).2) hcol hr
        simp only [Option.toList, List.count_nil] at hcs
        show ((t.intr.intern s).2 :: t.cellsOf).count x =
          (((t.cols.modify (fun col0 => col0.set r (some (t.intr.intern s).2))
            c).flatten).filterMap (fun c0 => c0)).count x
        rw [count_cons_split, hdef]
        omega
    | some oldId =>
      have hmem : oldId ∈ t.cellsOf := cellId_mem_cells hcell
      cases v with
      | none =>
        have hset : t.setIValue r c none =
            ⟨t.intr.release oldId,
              t.cols.modify (fun col0 => col0.set r none) c⟩ := by
          simp [ITable.setIValue, hcell]
        rw [hset]
        have hrc := release_coherent h oldId hmem
        apply coherent_congr ?_ hrc
        intro x
        have hcs := count_cells_set x (none : Option Nat) hcol hr
        simp only [Option.toList, List.count_nil] at hcs
        have her := count_erase_mem hmem x
        show (t.cellsOf.erase oldId).count x =
          (((t.cols.modify (fun col0 => col0.set r none) c).flatten).filterMap
            (fun c0 => c0)).count x
        rw [← hdef] at hcs
        omega
      | some s =>
        have hset : t.setIValue r c (some s) =
            ⟨((t.intr.intern s).1).release oldId,
              t.cols.modify (fun col0 => col0.set r (some (t.intr.intern s).2)) c⟩ := by
          simp [ITable.setIValue, hcell]
        rw [hset]
        have hic := (intern_coherent h s).1
        have hmem2 : oldId ∈ (t.intr.intern s).2 :: t.cellsOf := List.mem_cons_of_mem _ hmem
        have hrc := release_coherent hic oldId hmem2
        apply coherent_congr ?_ hrc
        intro x
        have hcs := count_cells_set x (some (t.intr.intern s).2) hcol hr
        simp only [Option.toList] at hcs
        have her := count_erase_mem hmem2 x
        have hsp := count_cons_split (t.intr.intern s).2 x t.cellsOf
        show (((t.intr.intern s).2 :: t.cellsOf).erase oldId).count x =
          (((t.cols.modify (fun col0 => col0.set r (some (t.intr.intern s).2))
            c).flatten).filterMap (fun c0 => c0)).count x
        rw [hsp] at her
        rw [← hdef] at hcs
        omega

theorem deleteIRow_coherent {t : ITable} (h : IntCoherent t.intr t.cellsOf)
    (r : Nat) :
    IntCoherent (t.deleteIRow r).intr (t.deleteIRow r).cellsOf := by
  have hdel : t.deleteIRow r =
      ⟨(t.cols.filterMap (fun col => (col.get? r).bind (fun c => c))).foldl
          Interner.release t.intr,
        t.cols.map (fun col => col.eraseIdx r)⟩ := rfl
  rw [hdel]
  have hcnt : ∀ x,
      ((ITable.mk ((t.cols.filterMap (fun col => (col.get? r).bind (fun c => c))).foldl
          Interner.release t.intr)
        (t.cols.map (fun col => col.eraseIdx r))).cellsOf).count x +
        ((t.cols.filterMap (fun col => (col.get? r).bind (fun c => c))).count x) =
      (t.cellsOf).count x := fun x => count_cells_del x r t.cols
  have hsub : ∀ x,
      (t.cols.filterMap (fun col => (col.get? r).bind (fun c => c))).count x ≤
        (t.cellsOf).count x := by
    intro x
    have := hcnt x
    omega
  obtain ⟨cells2, hcoh, hc2⟩ :=
    fold_release_coherent (t.cols.filterMap (fun col => (col.get? r).bind (fun c => c)))
      t.intr t.cellsOf h hsub
  apply coherent_congr ?_ hcoh
  intro x
  have h1 := hc2 x
  have h2 := hcnt x
  omega

theorem IStep_coherent {t : ITable} (h : IntCoherent t.intr t.cellsOf) :
    ∀ (op : IOp), IntCoherent (IStep t op).intr (IStep t op).cellsOf
  | .append vals => appendIRow_coherent h vals
  | .set r c v => setIValue_coherent h r c v
  | .del r => deleteIRow_coherent h r

theorem init_coherent (ncols : Nat) :
    IntCoherent (ITable.init ncols).intr (ITable.init ncols).cellsOf := by
  refine ⟨?_, ?_, ?_, ?_⟩
  · intro e he; simp [ITable.init] at he
  · simp [ITable.init]
  · simp [ITable.init]
  · intro x hx
    simp [ITable.init, ITable.cellsOf, List.flatten_replicate_nil] at hx

theorem foldl_IStep_coherent :
    ∀ (ops : List IOp) (t : ITable), IntCoherent t.intr t.cellsOf →
    IntCoherent (ops.foldl IStep t).intr (ops.foldl IStep t).cellsOf
  | [], _, h => h
  | op :: rest, t, h =>
    foldl_IStep_coherent rest (IStep t op) (IStep_coherent h op)

theorem IRun_coherent (ncols : Nat) (ops : List IOp) :
    IntCoherent (IRun ncols ops).intr (IRun ncols ops).cellsOf :=
  foldl_IStep_coherent ops (ITable.init ncols) (init_coherent ncols)

theorem count_eq_filter_length (a : Nat) (l : List Nat) :
    l.count a = (l.filter (fun x => x == a)).length := by
  show l.countP (fun x => x == a) = _
  rw [List.countP_eq_length_filter]

theorem sum_counts_nodup :
    ∀ (ids : List Nat), ids.Nodup → ∀ (cells : List Nat),
    (∀ x ∈ cells, x ∈ ids) →
    (ids.map (fun i => cells.count i)).sum = cells.length
  | [], _, cells, hcov => by
    cases cells with
    | nil => rfl
    | cons a as => exact absurd (hcov a (List.mem_cons_self a as)) (List.not_mem_nil a)
  | i :: is, hnd, cells, hcov => by
    have hnd2 : is.Nodup := (List.nodup_cons.mp hnd).2
    have hni : i ∉ is := (List.nodup_cons.mp hnd).1
    have hsplit : cells.length = (cells.filter (fun x => x == i)).length +
        (cells.filter (fun x => !(x == i))).length :=
      List.length_eq_length_filter_add (fun x => x == i)
    have hcur : cells.count i = (cells.filter (fun x => x == i)).length :=
      count_eq_filter_length i cells
    have hrest : ∀ j ∈ is, cells.count j =
        (cells.filter (fun x => !(x == i))).count j := by
      intro j hj
      have hji : (!(j == i)) = true := by
        simp only [Bool.not_eq_true', beq_eq_false_iff_ne, ne_eq]
        exact fun hh => hni (hh ▸ hj)
      exact (List.count_filter (p := fun x => !(x == i)) (a := j) hji).symm
    have hcov2 : ∀ x ∈ cells.filter (fun x => !(x == i)), x ∈ is := by
      intro x hx
      have hx1 := List.mem_of_mem_filter hx
      have hx2 := List.of_mem_filter hx
      have hx3 := hcov x hx1
      cases List.mem_cons.mp hx3 with
      | inl hxi => simp [hxi] at hx2
      | inr hh => exact hh
    have ih := sum_counts_nodup is hnd2 (cells.filter (fun x => !(x == i))) hcov2
    rw [List.map_cons, List.sum_cons]
    have hmapeq : is.map (fun j => cells.count j) =
        is.map (fun j => (cells.filter (fun x => !(x == i))).count j) :=
      List.map_congr_left hrest
    rw [hmapeq, ih, hcur]
    omega

theorem totalRefs_of_coherent {it : Interner} {cells : List Nat}
    (h : IntCoherent it cells) : it.totalReferences = cells.length := by
  obtain ⟨h1, _, h3, h4⟩ := h
  show (it.entries.map (fun e => e.2.2)).sum = cells.length
  have hmap : it.entries.map (fun e => e.2.2) =
      it.entries.map (fun e => cells.count e.2.1) :=
    List.map_congr_left (fun e he => (h1 e he).2.1)
  rw [hmap]
  have hmm : (it.entries.map (fun e => e.2.1)).map (fun i => cells.count i) =
      it.entries.map (fun e => cells.count e.2.1) := by
    rw [List.map_map]
    rfl
  rw [← hmm]
  exact sum_counts_nodup _ h3 cells (fun x hx => by
    obtain ⟨e, he, heq⟩ := h4 x hx
    exact List.mem_map.mpr ⟨e, he, heq⟩)

theorem length_filterMap_opt :
    ∀ (l : List (Option Nat)),
    (l.filterMap (fun c => c)).length = l.countP Option.isSome
  | [] => rfl
  | a :: as => by
    have ih := length_filterMap_opt as
    cases a <;> simp [List.filterMap_cons, List.countP_cons, ih]

theorem cells_length_eq_countP :
    ∀ (cols : List (List (Option Nat))),
    ((cols.flatten).filterMap (fun c => c)).length =
      (cols.map (fun col => col.countP Option.isSome)).sum
  | [] => rfl
  | col :: rest => by
    have ih := cells_length_eq_countP rest
    simp only [List.flatten_cons, List.filterMap_append, List.length_append,
      List.map_cons, List.sum_cons, length_filterMap_opt col, ih]

theorem cellCount_eq_length (t : ITable) : t.cellCount = t.cellsOf.length :=
  (cells_length_eq_countP t.cols).symm

theorem uniq_of_coherent {it : Interner} {cells : List Nat}
    (h : IntCoherent it cells) :
    it.uniqueStrings =
      (((it.entries.filter (fun e => 0 < e.2.2)).map (fun e => e.1)).dedup).length := by
  obtain ⟨h1, h2, _, _⟩ := h
  have hfil : it.entries.filter (fun e => 0 < e.2.2) = it.entries :=
    List.filter_eq_self.mpr (fun e he => by simpa using (h1 e he).1)
  show (it.entries.filter (fun e => 0 < e.2.2)).length = _
  rw [hfil, List.Nodup.dedup h2, List.length_map]

theorem intern_release_same {it : Interner} {cells : List Nat}
    (h : IntCoherent it cells) {s : String} {oldId : Nat}
    (he : ∃ e ∈ it.entries, e.2.1 = oldId ∧ e.1 = s) :
    ((it.intern s).1).release oldId = it := by
  obtain ⟨h1, h2, h3, _⟩ := h
  obtain ⟨e, hemem, heid, hes⟩ := he
  obtain ⟨ents, nid⟩ := it
  simp only at h1 h2 h3 hemem
  cases hf : ents.find? (fun e0 => decide (e0.1 = s)) with
  | none =>
    exfalso
    have hnone := List.find?_eq_none.mp hf e hemem
    simp [hes] at hnone
  | some e0 =>
    have hi : ((Interner.mk ents nid).intern s).1 =
        Interner.mk (ents.map (fun e0 =>
          if e0.1 = s then (e0.1, e0.2.1, e0.2.2 + 1) else e0)) nid := by
      unfold Interner.intern
      rw [hf]
    rw [hi]
    show Interner.mk
      (((ents.map (fun e0 =>
          if e0.1 = s then (e0.1, e0.2.1, e0.2.2 + 1) else e0)).map (fun e0 =>
          if e0.2.1 = oldId then (e0.1, e0.2.1, e0.2.2 - 1) else e0)).filter
        (fun e0 => 0 < e0.2.2)) nid = Interner.mk ents nid
    have hpt : ∀ e' ∈ ents,
        ((fun e0 => if e0.2.1 = oldId then (e0.1, e0.2.1, e0.2.2 - 1) else e0) ∘
          (fun e0 => if e0.1 = s then (e0.1, e0.2.1, e0.2.2 + 1) else e0)) e' = e' := by
      intro e' he'
      show (fun e0 => if e0.2.1 = oldId then (e0.1, e0.2.1, e0.2.2 - 1) else e0)
        (if e'.1 = s then (e'.1, e'.2.1, e'.2.2 + 1) else e') = e'
      by_cases hcs : e'.1 = s
      · have heq : e' = e :=
          List.inj_on_of_nodup_map h2 he' hemem (by rw [hcs, hes])
        have hco : e'.2.1 = oldId := by rw [heq, heid]
        rw [if_pos hcs]
        show (if e'.2.1 = oldId then (e'.1, e'.2.1, e'.2.2 + 1 - 1)
          else (e'.1, e'.2.1, e'.2.2 + 1)) = e'
        rw [if_pos hco]
        show (e'.1, e'.2.1, e'.2.2) = e'
        rfl
      · rw [if_neg hcs]
        show (if e'.2.1 = oldId then (e'.1, e'.2.1, e'.2.2 - 1) else e') = e'
        by_cases hco : e'.2.1 = oldId
        · have heq : e' = e :=
            List.inj_on_of_nodup_map h3 he' hemem (by rw [hco, heid])
          exact absurd (by rw [heq]; exact hes) hcs
        · rw [if_neg hco]
    rw [List.map_map]
    have hmid : ents.map
        ((fun e0 => if e0.2.1 = oldId then (e0.1, e0.2.1, e0.2.2 - 1) else e0) ∘
          (fun e0 => if e0.1 = s then (e0.1, e0.2.1, e0.2.2 + 1) else e0)) =
        ents.map id := List.map_congr_left hpt
    rw [hmid, List.map_id]
    have hfil : ents.filter (fun e0 => 0 < e0.2.2) = ents :=
      List.filter_eq_self.mpr (fun e1 he1 => by simpa using (h1 e1 he1).1)
    rw [hfil]

/-- C8: on a table with string interning, after any sequence of
append_row / set_value / delete_row operations, total_references
equals the number of non-null string cells of the table and
unique_strings equals the number of distinct interned strings with a
positive refcount; and because set_value interns the new value before
releasing the old id, setting a cell to the very string it already
holds leaves both statistics unchanged. -/
theorem interner_stats_invariant (ncols : Nat) (ops : List IOp) (r c : Nat)
    (s : String) (oldId : Nat) :
    (IRun ncols ops).intr.totalReferences = (IRun ncols ops).cellCount ∧
    (IRun ncols ops).intr.uniqueStrings =
      ((((IRun ncols ops).intr.entries.filter (fun e => 0 < e.2.2)).map
        (fun e => e.1)).dedup).length ∧
    ((IRun ncols ops).cellId r c = some (some oldId) →
      (∃ e ∈ (IRun ncols ops).intr.entries, e.2.1 = oldId ∧ e.1 = s) →
      ((IRun ncols ops).setIValue r c (some s)).intr.totalReferences =
          (IRun ncols ops).intr.totalReferences ∧
        ((IRun ncols ops).setIValue r c (some s)).intr.uniqueStrings =
          (IRun ncols ops).intr.uniqueStrings) := by
  have hco := IRun_coherent ncols ops
  refine ⟨?_, uniq_of_coherent hco, ?_⟩
  · rw [totalRefs_of_coherent hco, cellCount_eq_length]
  · intro hcell he
    have hset : (IRun ncols ops).setIValue r c (some s) =
        ⟨((((IRun ncols ops).intr.intern s).1).release oldId),
          (IRun ncols ops).cols.modify
            (fun col0 => col0.set r (some (((IRun ncols ops).intr.intern s).2))) c⟩ := by
      simp [ITable.setIValue, hcell]
    rw [hset]
    have hsame : ((((IRun ncols ops).intr.intern s).1).release oldId) =
        (IRun ncols ops).intr := intern_release_same hco he
    show ((((IRun ncols ops).intr.intern s).1).release oldId).totalReferences = _ ∧
      ((((IRun ncols ops).intr.intern s).1).release oldId).uniqueStrings = _
    rw [hsame]
    exact ⟨rfl, rfl⟩

/-- Witness for C8 on the three appends of
test_multiple_string_columns_share_interner: 9 non-null cells, 6
distinct strings, and re-setting cell (0,0) to the "John" it already
holds changes neither statistic. -/
theorem interner_stats_invariant_witness :
    (IRun 3 iDemoOps).intr.totalReferences = 9 ∧
    (IRun 3 iDemoOps).cellCount = 9 ∧
    (IRun 3 iDemoOps).intr.uniqueStrings = 6 ∧
    (IRun 3 iDemoOps).cellId 0 0 = some (some 0) ∧
    ((IRun 3 iDemoOps).setIValue 0 0 (some "John")).intr.totalReferences = 9 ∧
    ((IRun 3 iDemoOps).setIValue 0 0 (some "John")).intr.uniqueStrings = 6 := by
  have H := interner_stats_invariant 3 iDemoOps 0 0 "John" 0
  have h1 : (IRun 3 iDemoOps).cellId 0 0 = some (some 0) := by decide
  have h2 : ∃ e ∈ (IRun 3 iDemoOps).intr.entries, e.2.1 = 0 ∧ e.1 = "John" := by
    decide
  have h3 := H.2.2 h1 h2
  exact ⟨H.1.trans (by decide), by decide, H.2.1.trans (by decide), h1,
    h3.1.trans (H.1.trans (by decide)), h3.2.trans (H.2.1.trans (by decide))⟩

end LiveTable
